import Mathlib

/-!
Verification of the canal client's entry-navigation and scene/element
resolution engine (`src/app.go`) against its natural-language specification.

The Go source is shallowly embedded: each Go function that a claim touches
is translated into an executable Lean definition operating on `List Char` /
`String` / `Int`, with filesystem reads, regex match results and remote
fetches supplied as explicit oracle parameters.  Definitions named after Go
functions (`getEnv`, `evalEnvString`, `goTo`, ...) are translated from the
source; definitions whose name contains `spec` are written from the
specification's words, for comparison with the code.
-/

namespace Canal

/-! ### Go string/strconv primitives

These model the exact behavior of the Go standard-library calls the source
uses (`strings.TrimSpace`, `strings.SplitN(s, "=", -1)`, `strconv.Atoi`,
`strconv.Itoa`, `strings.Compare`, `strings.TrimPrefix`/`TrimSuffix`,
`strings.Repeat`).  They are written over `List Char` so that the kernel can
evaluate them on concrete inputs.  `TrimSpace` is modelled on the ASCII
whitespace set (the Unicode-only spaces Go also trims never occur in any
input considered here). -/

def isGoSpace (c : Char) : Bool :=
  c = ' ' || c = '\t' || c = '\n' || c = '\x0b' || c = '\x0c' || c = '\r'

def goTrimSpace (s : String) : String :=
  String.mk (((s.toList.dropWhile isGoSpace).reverse.dropWhile isGoSpace).reverse)

/-- Go `strings.Split` (= `SplitN` with n = -1) on a single-character
separator, over char lists. `splitOnChar sep [] = [[]]` as in Go. -/
def splitOnChar (sep : Char) : List Char → List (List Char)
  | [] => [[]]
  | c :: rest =>
    let r := splitOnChar sep rest
    if c = sep then [] :: r else (c :: r.headD []) :: r.tail

/-- Go `strings.SplitN(e, "=", -1)` as used by `getEnv`/`setEnv`. -/
def splitEq (s : String) : List String :=
  (splitOnChar '=' s.toList).map String.mk

def digitVal (c : Char) : Nat := c.toNat - 48

def digitsToNat (cs : List Char) : Nat :=
  cs.foldl (fun acc c => acc * 10 + digitVal c) 0

/-- Go `strconv.Atoi`: optional sign, then one-or-more decimal digits,
nothing else.  `none` models a non-nil error. -/
def goAtoi (s : String) : Option Int :=
  match s.toList with
  | [] => none
  | c :: rest =>
    if c = '+' then
      if rest ≠ [] ∧ rest.all Char.isDigit then some (digitsToNat rest) else none
    else if c = '-' then
      if rest ≠ [] ∧ rest.all Char.isDigit then some (-(digitsToNat rest : Int)) else none
    else
      if (c :: rest).all Char.isDigit then some (digitsToNat (c :: rest)) else none

def natDigits : Nat → Nat → List Char
  | 0, _ => []
  | fuel + 1, n => if n < 10 then [Nat.digitChar n] else natDigits fuel (n / 10) ++ [Nat.digitChar (n % 10)]

/-- Go `strconv.Itoa`. -/
def goItoa (n : Int) : String :=
  if n < 0 then String.mk ('-' :: natDigits n.toNat.succ n.natAbs)
  else String.mk (natDigits n.toNat.succ n.toNat)

def goCompareList : List Char → List Char → Int
  | [], [] => 0
  | [], _ :: _ => -1
  | _ :: _, [] => 1
  | a :: as, b :: bs =>
    if a.toNat < b.toNat then -1 else if b.toNat < a.toNat then 1 else goCompareList as bs

/-- Go `strings.Compare` (byte order; coincides with code-point order on the
ASCII data considered here). -/
def goCompare (a b : String) : Int := goCompareList a.toList b.toList

/-- Go `strings.TrimPrefix`. -/
def goTrimPre (p s : String) : String :=
  if p.toList.isPrefixOf s.toList then String.mk (s.toList.drop p.toList.length) else s

/-- Go `strings.TrimSuffix`. -/
def goTrimSuf (p s : String) : String :=
  if p.toList.reverse.isPrefixOf s.toList.reverse then
    String.mk (s.toList.take (s.toList.length - p.toList.length))
  else s

/-- Go `strings.HasPrefix`. -/
def goHasPre (s p : String) : Bool := p.toList.isPrefixOf s.toList

/-- Go `strings.Repeat("0", z)` specialised to what the source needs. -/
def zeroRepeat (z : Nat) : String := String.mk (List.replicate z '0')

/-! ### Environment table (`getEnv`, src/app.go lines 894-908)

An environment is a `List String` of `key=value` fragments, exactly as in the
Go code.  `getEnv` scans from the last entry backward; an entry is considered
only when `strings.SplitN(e, "=", -1)` yields exactly two fields, i.e. when
the fragment contains exactly one `'='`. -/

def getEnvRev (key : String) : List String → String
  | [] => ""
  | e :: rest =>
    match splitEq e with
    | [k, v] => if goTrimSpace k = key then goTrimSpace v else getEnvRev key rest
    | _ => getEnvRev key rest

/-- Function `getEnv` from src/app.go: value of `key` in `env`, last matching entry
wins, `""` when absent. -/
def getEnv (key : String) (env : List String) : String :=
  getEnvRev key env.reverse

/-- Modelled from the spec's words for claim C6: lookup scanning from the
most-recently-added entry backward, skipping only fragments that lack `'='`
entirely; key is the part before the first `'='`, value the remainder, both
trimmed. -/
def specLookup (key : String) (env : List String) : String :=
  match env.reverse.find? (fun e =>
      ('=' ∈ e.toList) ∧ goTrimSpace (String.mk (e.toList.takeWhile (· ≠ '='))) = key) with
  | none => ""
  | some e => goTrimSpace (String.mk ((e.toList.dropWhile (· ≠ '=')).drop 1))

/-! ### Template expander (`evalEnvString`, src/app.go lines 933-969)

The Go code repeatedly finds the leftmost match of `[$]\w+` (`reA`) and of
`[$][{]\w+[}]` (`reB`), picks the one starting at the lower index, and
replaces it by `getEnv` of the reference word (braces trimmed).  `findA` and
`findB` model `FindStringIndex` for those two patterns: the match is the
leftmost start position, and `\w+` is greedy, so the matched word run is
maximal.  The Go `for` loop has no bound; it is embedded with explicit fuel,
`none` meaning the loop is still running when the fuel runs out. -/

def isWordChar (c : Char) : Bool := c.isAlphanum || c = '_'

/-- Length of the leading `\w*` run. -/
def wordRun : List Char → Nat
  | [] => 0
  | c :: rest => if isWordChar c then wordRun rest + 1 else 0

/-- Leftmost match of `[$]\w+` as a (start, end) index pair. -/
def findA : List Char → Option (Nat × Nat)
  | [] => none
  | c :: rest =>
    if c = '$' ∧ 0 < wordRun rest then some (0, 1 + wordRun rest)
    else (findA rest).map (fun p => (p.1 + 1, p.2 + 1))

/-- Length of a `[$][{]\w+[}]` match anchored at the head, if any. -/
def matchBHead : List Char → Option Nat
  | c0 :: c1 :: rest =>
    if c0 = '$' ∧ c1 = '{' ∧ 0 < wordRun rest ∧ rest[wordRun rest]? = some '}' then
      some (wordRun rest + 3)
    else none
  | _ => none

/-- Leftmost match of `[$][{]\w+[}]` as a (start, end) index pair. -/
def findB : List Char → Option (Nat × Nat)
  | [] => none
  | l@(_ :: rest) =>
    match matchBHead l with
    | some n => some (0, n)
    | none => (findB rest).map (fun p => (p.1 + 1, p.2 + 1))

/-- The source's choice between the two matches: both `nil` means done;
otherwise the match with the smaller start index wins. -/
def chooseRef : Option (Nat × Nat) → Option (Nat × Nat) → Option (Nat × Nat)
  | none, none => none
  | some a, none => some a
  | none, some b => some b
  | some a, some b => some (if a.1 < b.1 then a else b)

/-- The `envk` extraction: `v[s+1:e]` with `strings.TrimPrefix(·, "{")` and
`strings.TrimSuffix(·, "}")` applied. -/
def refKeyOf (seg : List Char) : String :=
  goTrimSuf "\x7d" (goTrimPre "\x7b" (String.mk seg))

/-- One iteration of the `evalEnvString` loop body; `none` when both regex
searches fail and the loop exits. -/
def evalStep (env : List String) (v : List Char) : Option (List Char) :=
  match chooseRef (findA v) (findB v) with
  | none => none
  | some (s, e) =>
    some ((v.take s) ++ (getEnv (refKeyOf ((v.take e).drop (s + 1))) env).toList ++ (v.drop e))

def evalLoop (env : List String) : Nat → List Char → Option (List Char)
  | 0, _ => none
  | fuel + 1, v =>
    match evalStep env v with
    | none => some v
    | some v' => evalLoop env fuel v'

/-- Function `evalEnvString` from src/app.go, with fuel; `none` means the source's
unbounded loop has not terminated within `fuel` iterations. -/
def evalEnvString (fuel : Nat) (v : String) (env : List String) : Option String :=
  (evalLoop env fuel v.toList).map String.mk

/-- Proposition that `evalEnvString v env` terminates: the source loop exits after finitely
many iterations. -/
def EvalTerminates (v : String) (env : List String) : Prop :=
  ∃ fuel, (evalEnvString fuel v env).isSome

/-! Declarative description of a `$WORD` / `${WORD}` reference, written from
the specification's words for claims C4/C5: used to state that each loop
iteration replaces the earliest reference of either form. -/

/-- Characters `[a, b)` of `v`. -/
def seg (v : List Char) (a b : Nat) : List Char := (v.take b).drop a

/-- A `$WORD` reference occupying `v[s:e)` with word `w`: a `'$'`, then a
nonempty maximal run of word characters. -/
def RefA (v : List Char) (s e : Nat) (w : List Char) : Prop :=
  v[s]? = some '$' ∧ e ≤ v.length ∧ seg v (s + 1) e = w ∧ w ≠ [] ∧
    (∀ c ∈ w, isWordChar c) ∧ (∀ c, v[e]? = some c → ¬ isWordChar c)

/-- A `${WORD}` reference occupying `v[s:e)` with word `w`. -/
def RefB (v : List Char) (s e : Nat) (w : List Char) : Prop :=
  v[s]? = some '$' ∧ e ≤ v.length ∧ seg v (s + 1) e = '{' :: w ++ ['}'] ∧ w ≠ [] ∧
    (∀ c ∈ w, isWordChar c)

/-- A reference of either form starts at `s`. -/
def RefAt (v : List Char) (s e : Nat) (w : List Char) : Prop :=
  RefA v s e w ∨ RefB v s e w

/-! ### Version scanner (`ListElements` and `LastVersionOfElement`,
src/app.go lines 1127-1288)

The filesystem and the compiled regex are supplied as oracles: `files` is
the `os.ReadDir` result (entry name and `IsDir` flag, or an error), and
`matchOf` gives, per filename, the expansion results of the capture groups
`$ELEM`, `$VER`, `$EXT`, `$EXTRA` (`none` when `FindStringSubmatchIndex`
returns nil; in `ListElements` a nil match index makes every group expand to
the empty string).  Environment resolution (`SCENE_DIR`, the scene-name
query) happens before the part modelled here and its results are
parameters. -/

/-- Go `os.ReadDir` failure, split as the source splits it with
`errors.Is(err, os.ErrNotExist)`. -/
inductive ReadDirErr where
  | notExist : ReadDirErr
  | other : String → ReadDirErr
deriving DecidableEq, Repr

structure DirEnt where
  name : String
  isDir : Bool
deriving DecidableEq, Repr

/-- Capture-group expansions of one filename against the compiled pattern. -/
structure GroupMatch where
  el : String
  ver : String
  ext : String
  extra : String
deriving DecidableEq, Repr

structure Version where
  name : String
  num : Int
  scene : String
deriving DecidableEq, Repr

structure Elem where
  name : String
  program : String
  versions : List Version
deriving DecidableEq, Repr

/-- Errors of the scan functions.  `elemNotExist` embeds `ElemNotExistError`;
`sceneDirNotFound` embeds the plain `fmt.Errorf("not found scene directory")`
of `LastVersionOfElement`; `ioErr` embeds any other propagated error. -/
inductive ScanErr where
  | elemNotExist : String → ScanErr
  | sceneDirNotFound : String → ScanErr
  | ioErr : String → ScanErr
deriving DecidableEq, Repr

deriving instance DecidableEq for Except

/-- The version-number parse shared by both scan functions (src/app.go lines
1181-1188 and 1266-1273): strip a leading lowercase `"v"` only, then
`strconv.Atoi`, `-1` on error. -/
def goVerNum (ver : String) : Int :=
  ((goAtoi (if goHasPre ver "v" then String.mk (ver.toList.drop 1) else ver)).getD (-1))

/-- Modelled from the spec's words for claim C1: parsed integer with a
leading `v` or `V` stripped, sentinel -1 when the remainder is not a decimal
integer. -/
def specVerNum (ver : String) : Int :=
  let rest := if goHasPre ver "v" ∨ goHasPre ver "V" then String.mk (ver.toList.drop 1) else ver
  (goAtoi rest).getD (-1)

/-- The `sort.Slice` comparator on versions (src/app.go lines 1194-1201 and
1279-1286): numeric descending, ties prefer the longer raw token. -/
def verLess (a b : Version) : Bool :=
  if a.num - b.num ≠ 0 then a.num - b.num > 0 else a.name.toList.length > b.name.toList.length

/-- The non-strict total order the comparator sorts by (`¬ verLess b a`). -/
def verLE (a b : Version) : Bool := ! verLess b a

def verLEr (a b : Version) : Prop := verLE a b = true

instance : DecidableRel verLEr := fun _ _ => inferInstanceAs (Decidable (_ = true))

/-- Go's `sort.Slice` is unstable: its output is some permutation that is
pairwise ordered by `verLE`.  The embedding uses insertion sort, which
produces one such permutation. -/
def sortVersions (vs : List Version) : List Version := vs.insertionSort verLEr

/-- The `programOf` map built from the configured programs (ext ↦ program name,
later entries overwriting earlier ones as in a Go map). -/
def programOf (programs : List (String × String)) (ext : String) : Option String :=
  (programs.reverse.find? (fun p => p.1 = ext)).map (·.2)

/-- The per-file accumulation step of `ListElements`: group into an
association list keyed by `el ++ "/" ++ programName` exactly as the Go map
is keyed, appending each new `Version` at the end of its element's list. -/
def addScan (sceneDir : String) (programs : List (String × String))
    (matchOf : String → Option GroupMatch) (acc : List (String × Elem)) (f : DirEnt) :
    List (String × Elem) :=
  if f.isDir then acc else
  let m := (matchOf f.name).getD ⟨"", "", "", ""⟩
  if m.extra ≠ "" then acc else
  match programOf programs m.ext with
  | none => acc
  | some prog =>
    let key := m.el ++ "/" ++ prog
    let v : Version := ⟨m.ver, goVerNum m.ver, sceneDir ++ "/" ++ f.name⟩
    match acc.find? (fun kv => kv.1 = key) with
    | none => acc ++ [(key, ⟨m.el, prog, [v]⟩)]
    | some kv =>
      acc.map (fun kv' => if kv'.1 = key then (kv'.1, { kv.2 with versions := kv.2.versions ++ [v] }) else kv')

/-- Comparator of `ListElements`' final element sort: name then program. -/
def elemLE (a b : Elem) : Bool :=
  if goCompare a.name b.name ≠ 0 then goCompare a.name b.name < 0
  else goCompare a.program b.program ≤ 0

def elemLEr (a b : Elem) : Prop := elemLE a b = true

instance : DecidableRel elemLEr := fun _ _ => inferInstanceAs (Decidable (_ = true))

/-- Function `ListElements` (src/app.go lines 1127-1213) given resolved `sceneDir`,
the directory listing and the match oracle. -/
def listElements (sceneDir : String) (programs : List (String × String))
    (matchOf : String → Option GroupMatch) (files : Except ReadDirErr (List DirEnt)) :
    Except ScanErr (List Elem) :=
  match files with
  | .error .notExist => .ok []
  | .error (.other msg) => .error (.ioErr msg)
  | .ok fs =>
    let grouped := fs.foldl (addScan sceneDir programs matchOf) []
    .ok (((grouped.map (·.2)).map (fun e => { e with versions := sortVersions e.versions })).insertionSort elemLEr)

/-- The version list `LastVersionOfElement` accumulates (src/app.go lines
1254-1275): one entry per matching file; a nil match index skips the file;
`Scene` is not filled in there. -/
def lastVersionVers (matchOf : String → Option GroupMatch) (fs : List DirEnt) : List Version :=
  fs.foldl (fun acc f =>
    if f.isDir then acc else
    match matchOf f.name with
    | none => acc
    | some m => acc ++ [⟨m.ver, goVerNum m.ver, ""⟩]) []

/-- Function `LastVersionOfElement` (src/app.go lines 1215-1288) given resolved
`sceneDir`, the element name, the directory listing and the match oracle. -/
def lastVersionOfElement (sceneDir elem : String)
    (matchOf : String → Option GroupMatch) (files : Except ReadDirErr (List DirEnt)) :
    Except ScanErr String :=
  match files with
  | .error .notExist => .error (.sceneDirNotFound sceneDir)
  | .error (.other msg) => .error (.ioErr msg)
  | .ok fs =>
    let vers := lastVersionVers matchOf fs
    if vers = [] then .error (.elemNotExist elem)
    else .ok (((sortVersions vers).headD ⟨"", 0, ""⟩).name)

/-! ### New-element version scheme and next-version search (`NewElement`,
src/app.go lines 1032-1082) -/

/-- The `NEW_VER` scan loop of `NewElement` (src/app.go lines 1039-1046),
verbatim: `i` runs from `len(ver)-1` down to `0` and at every index whose
character is not a digit (single-character `strconv.Atoi` fails) the pair
`(verPre, verDigits)` is overwritten with `(ver[:i+1], ver[i+1:])`; there is
no break, so the final value comes from the smallest such index.
`newVerScanDesc cs k acc` processes indices `k-1, k-2, ..., 0`. -/
def newVerScanDesc (cs : List Char) : Nat → String × String → String × String
  | 0, acc => acc
  | i + 1, acc =>
    newVerScanDesc cs i
      (if ¬ (cs[i]?.getD '0').isDigit then (String.mk (cs.take (i + 1)), String.mk (cs.drop (i + 1))) else acc)

/-- The `(verPre, verDigits)` pair `NewElement` ends up with: defaults
`("v", "001")`, overridden by the scan loop when `NEW_VER` is nonempty. -/
def newVerScheme (newVer : String) : String × String :=
  if newVer = "" then ("v", "001")
  else newVerScanDesc newVer.toList newVer.toList.length ("v", "001")

/-- Modelled from the spec's words for claim C3: split `NEW_VER` into a
non-numeric prefix and a numeric-digit suffix. -/
def specVerScheme (newVer : String) : String × String :=
  if newVer = "" then ("v", "001")
  else
    let ds := (newVer.toList.reverse.takeWhile Char.isDigit).reverse
    (String.mk (newVer.toList.take (newVer.toList.length - ds.length)), String.mk ds)

/-- One candidate version token (src/app.go lines 1065-1070): `verPre`
followed by the decimal rendering of `n` left-padded with zeros to at least
`nDigits` characters (`z := nDigits - len(v); if z < 0 { z = 0 }`). -/
def renderVer (verPre : String) (nDigits : Nat) (n : Int) : String :=
  verPre ++ zeroRepeat (nDigits - (goItoa n).toList.length) ++ goItoa n

/-- The starting candidate number of `NewElement` (src/app.go lines
1047-1063): `strconv.Atoi(verDigits)` with the error ignored (0 on failure),
replaced by `last + 1` when `LastVersionOfElement` returned a nonempty
token; a token that does not parse after `strings.TrimPrefix(·, "v")` aborts
with an error, and a non-`ElemNotExist` scan error propagates. -/
def newElementStart (verDigits : String) (last : Except ScanErr String) : Except ScanErr Int :=
  match last with
  | .error (.elemNotExist _) => .ok ((goAtoi verDigits).getD 0)
  | .error e => .error e
  | .ok l =>
    if l = "" then .ok ((goAtoi verDigits).getD 0)
    else
      match goAtoi (goTrimPre "v" l) with
      | none => .error (.ioErr "atoi")
      | some n => .ok (n + 1)

/-- The unbounded candidate loop of `NewElement` (src/app.go lines
1064-1082), with fuel: starting at `n`, render the token, let the caller's
`renderScene` oracle stand for `evalEnvString(sceneName)` prefixed by
`sceneDir ++ "/"`, and stop at the first candidate whose `os.Stat` (the
`stat` oracle) reports not-exists. -/
def findFreeScene (renderScene : String → String) (stat : String → Bool)
    (verPre : String) (nDigits : Nat) : Nat → Int → Option String
  | 0, _ => none
  | fuel + 1, n =>
    let scene := renderScene (renderVer verPre nDigits n)
    if ¬ stat scene then some scene
    else findFreeScene renderScene stat verPre nDigits fuel (n + 1)

/-- The version-selection core of `NewElement`: derive the scheme from
`NEW_VER`, compute the starting number from `LastVersionOfElement`'s result,
and take the first on-disk-free candidate. -/
def newElementScene (newVer : String) (last : Except ScanErr String)
    (renderScene : String → String) (stat : String → Bool) (fuel : Nat) :
    Except ScanErr (Option String) :=
  match newElementStart (newVerScheme newVer).2 last with
  | .error e => .error e
  | .ok start =>
    .ok (findFreeScene renderScene stat (newVerScheme newVer).1
      (newVerScheme newVer).2.toList.length fuel start)

/-! ### Entry-list ordering (`ListAllEntries`, src/app.go lines 431-498)

Only the comparator passed to `sort.Slice` is modelled: the claims are about
the relative order of two compared entries.  The closure's `dir` variable is
mutable in Go (`dir = 1` inside the value-comparison branch overwrites the
configured direction); the inner closure is modelled as returning the pair
`(cmp, dir)`. -/

structure PropVal where
  typ : String
  val : String
deriving DecidableEq, Repr

structure Entry where
  typ : String
  name : String
  props : List (String × PropVal)
deriving DecidableEq, Repr

structure Sorter where
  property : String
  descending : Bool
deriving DecidableEq, Repr

def lookupProp (e : Entry) (p : String) : Option PropVal :=
  (e.props.find? (fun kv => kv.1 = p)).map (·.2)

/-- The inner comparison closure (src/app.go lines 447-487).  Returns the
comparison result together with the possibly-overwritten `dir`. -/
def entryPropCmp (sorter : Sorter) (a b : Entry) (dir : Int) : Int × Int :=
  if sorter.property = "" then (0, dir) else
  match lookupProp a sorter.property, lookupProp b sorter.property with
  | none, _ => (-1, dir)
  | some _, none => (1, dir)
  | some ip, some jp =>
    if goCompare ip.typ jp.typ ≠ 0 then (goCompare ip.typ jp.typ, dir)
    else
      let c : Int := (if ip.val = "" then 1 else 0) - (if jp.val = "" then 1 else 0)
      if c ≠ 0 then (c, 1)
      else if ip.typ = "int" then
        let iv := (goAtoi ip.val).getD 0
        let jv := (goAtoi jp.val).getD 0
        (if iv < jv then -1 else if jv < iv then 1 else 0, dir)
      else (goCompare ip.val jp.val, dir)

/-- Lookup `a.entrySorters[typ]`: a Go map read returning the zero `Sorter` when
the type has no configured rule. -/
def sorterFor (sorters : List (String × Sorter)) (typ : String) : Sorter :=
  ((sorters.find? (fun kv => kv.1 = typ)).map (·.2)).getD ⟨"", false⟩

/-- The `sort.Slice` comparator of `ListAllEntries` (src/app.go lines
437-496); `sorters` is the `entrySorters` map, a missing type yielding the
zero `Sorter`. -/
def entryLess (sorters : List (String × Sorter)) (a b : Entry) : Bool :=
  if goCompare a.typ b.typ ≠ 0 then goCompare a.typ b.typ < 0
  else
    let sorter := sorterFor sorters a.typ
    let dir0 : Int := if sorter.descending then -1 else 1
    let (c, dir) := entryPropCmp sorter a b dir0
    if c ≠ 0 then dir * c < 0
    else if goCompare a.name b.name ≠ 0 then dir * goCompare a.name b.name < 0
    else true

/-! ### Path history navigator (`GoTo`, `GoBack`, `GoForward`,
src/app.go lines 314-389)

`fetch p` models `a.GetEntry(p)` succeeding and `load p` models
`a.loadEntry(entry)` succeeding; a fetch failure leaves the state unchanged,
a load failure occurs after the history/path mutation, exactly as in the
source.  The history index is an `Int`, as in Go, so the defensive clamps of
`GoBack`/`GoForward` are represented faithfully. -/

structure Nav where
  history : List String
  historyIdx : Int
  path : String
deriving DecidableEq, Repr

inductive NavErr where
  | emptyPath : NavErr
  | fetchFail : NavErr
  | loadFail : NavErr
  | noPrevEntry : NavErr
  | noNextEntry : NavErr
deriving DecidableEq, Repr

/-- The path normalization at the top of `GoTo`: strip one trailing slash
unless the path is exactly `"/"`. -/
def normPath (p : String) : String :=
  if p ≠ "/" ∧ p.toList.getLast? = some '/' then String.mk (p.toList.dropLast) else p

/-- Method `GoTo` (src/app.go lines 314-343). -/
def goTo (fetch load : String → Bool) (s : Nav) (p : String) : Nav × Option NavErr :=
  if p = "" then (s, some .emptyPath) else
  let p := normPath p
  if p = s.path then (s, none) else
  if ¬ fetch p then (s, some .fetchFail) else
  let hist :=
    if (s.history.length : Int) > s.historyIdx + 1 then s.history.take (s.historyIdx + 1).toNat
    else s.history
  let hist := hist ++ [p]
  let idx : Int := (hist.length : Int) - 1
  let s' : Nav := ⟨hist, idx, hist.getD idx.toNat ""⟩
  if load p then (s', none) else (s', some .loadFail)

/-- Method `GoBack` (src/app.go lines 345-366), including the negative-index
clamp. -/
def goBack (fetch load : String → Bool) (s : Nav) : Nav × Option NavErr :=
  let s := if s.historyIdx < 0 then { s with historyIdx := 0 } else s
  if s.historyIdx ≤ 0 then (s, some .noPrevEntry) else
  let p := s.history.getD (s.historyIdx - 1).toNat ""
  if ¬ fetch p then (s, some .fetchFail) else
  let s' : Nav := ⟨s.history, s.historyIdx - 1, p⟩
  if load p then (s', none) else (s', some .loadFail)

/-- Method `GoForward` (src/app.go lines 368-389), including the past-the-end
clamp. -/
def goForward (fetch load : String → Bool) (s : Nav) : Nav × Option NavErr :=
  let s :=
    if s.historyIdx > (s.history.length : Int) - 1 then
      { s with historyIdx := (s.history.length : Int) - 1 }
    else s
  if s.historyIdx ≥ (s.history.length : Int) - 1 then (s, some .noNextEntry) else
  let p := s.history.getD (s.historyIdx + 1).toNat ""
  if ¬ fetch p then (s, some .fetchFail) else
  let s' : Nav := ⟨s.history, s.historyIdx + 1, p⟩
  if load p then (s', none) else (s', some .loadFail)

/-- The navigator state of a freshly constructed `App` (`newState`): empty
history, index 0, empty path. -/
def navInit : Nav := ⟨[], 0, ""⟩

/-- Navigator states reachable through the three operations (successful or
not) from the initial state, for a fixed pair of oracles. -/
inductive Reachable (fetch load : String → Bool) : Nav → Prop
  | init : Reachable fetch load navInit
  | stepGoTo (s : Nav) (p : String) : Reachable fetch load s →
      Reachable fetch load (goTo fetch load s p).1
  | stepBack (s : Nav) : Reachable fetch load s →
      Reachable fetch load (goBack fetch load s).1
  | stepFwd (s : Nav) : Reachable fetch load s →
      Reachable fetch load (goForward fetch load s).1

/-! ### Lemmas about `splitOnChar` and the environment lookup (claim C6) -/

/-- The character predicate `(· ≠ sep)`, named so that statements and
definitions share one syntactic form. -/
def neChar (sep c : Char) : Bool := c ≠ sep

lemma splitOnChar_ne_nil (sep : Char) (cs : List Char) : splitOnChar sep cs ≠ [] := by
  cases cs with
  | nil => simp [splitOnChar]
  | cons c rest => simp only [splitOnChar]; split <;> simp

lemma length_splitOnChar (sep : Char) (cs : List Char) :
    (splitOnChar sep cs).length = cs.count sep + 1 := by
  induction cs with
  | nil => simp [splitOnChar]
  | cons c rest ih =>
    obtain ⟨g, gs, hg⟩ := List.exists_cons_of_ne_nil (splitOnChar_ne_nil sep rest)
    simp only [splitOnChar, hg]
    by_cases hc : c = sep
    · simp only [hc, if_pos rfl, List.count_cons_self]
      simpa [hg] using ih
    · have : rest.count sep = gs.length := by
        have := ih; rw [hg] at this; simp at this; omega
    
      simp [hc, List.count_cons, this]

lemma splitOnChar_of_count_zero (sep : Char) (cs : List Char) (h : cs.count sep = 0) :
    splitOnChar sep cs = [cs] := by
  induction cs with
  | nil => simp [splitOnChar]
  | cons c rest ih =>
    rw [List.count_cons] at h
    have hc : ¬ c = sep := by
      intro hcs; simp [hcs] at h
    have hr : rest.count sep = 0 := by
      simp [hc] at h; omega
    simp [splitOnChar, hc, ih hr]

lemma splitOnChar_of_count_one (sep : Char) (cs : List Char) (h : cs.count sep = 1) :
    splitOnChar sep cs = [cs.takeWhile (neChar sep), (cs.dropWhile (neChar sep)).tail] := by
  induction cs with
  | nil => simp at h
  | cons c rest ih =>
    rw [List.count_cons] at h
    by_cases hc : c = sep
    · have hr : rest.count sep = 0 := by simp [hc] at h; omega
      subst hc
      have hp : neChar c c = false := by simp [neChar]
      simp [splitOnChar, splitOnChar_of_count_zero _ _ hr, List.takeWhile_cons, List.dropWhile_cons, hp]
    · have hr : rest.count sep = 1 := by simp [hc] at h; omega
      have hp : neChar sep c = true := by simp [neChar, hc]
      simp [splitOnChar, hc, ih hr, List.takeWhile_cons, List.dropWhile_cons, hp]

/-- The per-entry acceptance test of the amended claim C6: the fragment
contains exactly one `'='` and its trimmed key equals the name. -/
def exactKVFor (key e : String) : Bool :=
  (e.toList.count '=' = 1) && (goTrimSpace (String.mk (e.toList.takeWhile (neChar '='))) = key)

/-- Modelled from the amended words for claim C6: lookup scanning from the
most recently added entry backward, considering an entry only when it
contains exactly one `'='`; key is the part before it, value the part after
it, both trimmed; `""` when nothing matches. -/
def specLookupExact (key : String) (env : List String) : String :=
  match env.reverse.find? (exactKVFor key) with
  | none => ""
  | some e => goTrimSpace (String.mk ((e.toList.dropWhile (neChar '=')).tail))

lemma getEnvRev_eq_specExact (key : String) (l : List String) :
    getEnvRev key l =
      (match l.find? (exactKVFor key) with
        | none => ""
        | some e => goTrimSpace (String.mk ((e.toList.dropWhile (neChar '=')).tail))) := by
  induction l with
  | nil => simp [getEnvRev]
  | cons e rest ih =>
    by_cases hc : e.toList.count '=' = 1
    · have hsp := splitOnChar_of_count_one '=' e.toList hc
      have hse : splitEq e =
          [String.mk (e.toList.takeWhile (neChar '=')), String.mk ((e.toList.dropWhile (neChar '=')).tail)] := by
        simp only [splitEq]
        rw [hsp]
        simp
      by_cases hk : goTrimSpace (String.mk (e.toList.takeWhile (neChar '='))) = key
      · have hfind : (e :: rest).find? (exactKVFor key) = some e :=
          List.find?_cons_of_pos _
            (by simp only [exactKVFor, Bool.and_eq_true, decide_eq_true_eq]; exact ⟨hc, hk⟩)
        rw [hfind]
        simp only [getEnvRev, hse, if_pos hk]
      · have hfind : (e :: rest).find? (exactKVFor key) = rest.find? (exactKVFor key) :=
          List.find?_cons_of_neg _
            (by simp only [exactKVFor, Bool.and_eq_true, decide_eq_true_eq]
                exact fun h => hk h.2)
        rw [hfind, ← ih]
        simp only [getEnvRev, hse, if_neg hk]
    · have hlen : (splitEq e).length ≠ 2 := by
        simp only [splitEq, List.length_map, length_splitOnChar]
        omega
      have hfind : (e :: rest).find? (exactKVFor key) = rest.find? (exactKVFor key) :=
        List.find?_cons_of_neg _
          (by simp only [exactKVFor, Bool.and_eq_true, decide_eq_true_eq]
              exact fun h => absurd h.1 hc)
      rw [hfind, ← ih]
      simp only [getEnvRev]
      rcases hspl : splitEq e with _ | ⟨k, _ | ⟨v, _ | _⟩⟩ <;> simp_all

/-- Claim C6 (amended): `getEnv` scans from the most recently added entry
backward and returns the trimmed value of the first entry with exactly one
`'='` whose trimmed key equals the name; any fragment not containing exactly
one `'='` is skipped, and a missing key yields the empty string, never an
error. -/
theorem c6_get_env_exact_kv (key : String) (env : List String) :
    getEnv key env = specLookupExact key env := by
  rw [getEnv, specLookupExact, getEnvRev_eq_specExact]

/-- Claim C6, as stated, is false: the fragment `"A=b=c"` does contain `'='`
(so the claimed lookup semantics yields `"b=c"`), but `getEnv` skips it
because `strings.SplitN(e, "=", -1)` yields three fields, and returns
`""`. -/
theorem c6_counterexample :
    getEnv "A" ["A=b=c"] = "" ∧ specLookup "A" ["A=b=c"] = "b=c" ∧
      getEnv "A" ["A=b=c"] ≠ specLookup "A" ["A=b=c"] := by
  refine ⟨by decide, by decide, by decide⟩

/-! ### Claim C3: the NEW_VER scheme derivation (code bug) -/

/-- Claim C3 fails on the code: for `NEW_VER = "ver001"` the claim (and the
intent of the backwards scan, which is missing a `break`) derives prefix
`"ver"`, digits `"001"` (width 3, start 1), but the loop's last assignment
happens at the smallest non-digit index, yielding `verPre = "v"`,
`verDigits = "er001"` — width 5 and, because the `strconv.Atoi` error on
`"er001"` is discarded, starting count 0, so the first rendered candidate
token is `"v00000"` instead of `"ver001"`. -/
theorem c3_new_ver_scheme_bug :
    newVerScheme "ver001" = ("v", "er001")
      ∧ specVerScheme "ver001" = ("ver", "001")
      ∧ newVerScheme "ver001" ≠ specVerScheme "ver001"
      ∧ newElementStart (newVerScheme "ver001").2 (.error (.elemNotExist "main")) = .ok 0
      ∧ renderVer (newVerScheme "ver001").1 (newVerScheme "ver001").2.toList.length 0 = "v00000" :=
  ⟨by decide, by decide, by decide, by decide, by decide⟩

/-! ### Claim C7: missing scene directory -/

/-- Test `errors.As` against `ElemNotExistError`: whether a scan result failed
with the element-does-not-exist condition. -/
def isElemNotExistErr (r : Except ScanErr String) : Bool :=
  match r with
  | .error (.elemNotExist _) => true
  | _ => false

/-- Claim C7, as stated, is false for `LastVersionOfElement`: on a
non-existent scene directory it fails with the generic "not found scene
directory" error, which is not the element-does-not-exist condition
(`ListElements` does return the empty list, as claimed). -/
theorem c7_counterexample :
    listElements "/scn" [("ma", "maya")] (fun _ => none) (.error .notExist) = .ok []
      ∧ lastVersionOfElement "/scn" "main" (fun _ => none) (.error .notExist)
          = .error (.sceneDirNotFound "/scn")
      ∧ isElemNotExistErr
          (lastVersionOfElement "/scn" "main" (fun _ => none) (.error .notExist)) = false :=
  ⟨by decide, by decide, by decide⟩

/-- Claim C7 (amended): a non-existent scene directory makes `ListElements`
return an empty element list, while `LastVersionOfElement` fails with the
generic not-found-scene-directory error; its element-does-not-exist
condition arises exactly when the directory was read successfully and the
restricted scan produced zero matches. -/
theorem c7_missing_dir_behavior (sceneDir elem : String) (programs : List (String × String))
    (matchOf : String → Option GroupMatch) (files : Except ReadDirErr (List DirEnt)) :
    (files = .error .notExist →
      listElements sceneDir programs matchOf files = .ok []
        ∧ lastVersionOfElement sceneDir elem matchOf files = .error (.sceneDirNotFound sceneDir))
    ∧ (∀ e, lastVersionOfElement sceneDir elem matchOf files = .error (.elemNotExist e) ↔
        (e = elem ∧ ∃ fs, files = .ok fs ∧ lastVersionVers matchOf fs = [])) := by
  constructor
  · intro h
    subst h
    exact ⟨rfl, rfl⟩
  · intro e
    cases files with
    | error err =>
      cases err with
      | notExist =>
        simp only [lastVersionOfElement]
        constructor
        · intro h
          cases h
        · rintro ⟨-, fs, hfs, -⟩
          cases hfs
      | other msg =>
        simp only [lastVersionOfElement]
        constructor
        · intro h
          cases h
        · rintro ⟨-, fs, hfs, -⟩
          cases hfs
    | ok fs =>
      simp only [lastVersionOfElement]
      by_cases hv : lastVersionVers matchOf fs = []
      · simp only [hv, if_pos rfl]
        constructor
        · intro h
          cases h
          exact ⟨rfl, fs, rfl, hv⟩
        · rintro ⟨he, -⟩
          subst he
          rfl
      · simp only [if_neg hv]
        constructor
        · intro h
          cases h
        · rintro ⟨-, fs', hfs', hv'⟩
          cases hfs'
          exact absurd hv' hv

/-- Witness for `c7_missing_dir_behavior` at a concrete input. -/
theorem c7_witness :
    listElements "/scn" [("ma", "maya")] (fun _ => none) (.ok [⟨"x.txt", false⟩]) = .ok []
      ∧ (lastVersionOfElement "/scn" "main" (fun _ => none) (.ok [⟨"x.txt", false⟩])
            = .error (.elemNotExist "main")
          ↔ ("main" = "main" ∧ ∃ fs, (Except.ok [⟨"x.txt", false⟩] :
              Except ReadDirErr (List DirEnt)) = .ok fs ∧ lastVersionVers (fun _ => none) fs = [])) :=
  ⟨by decide,
    (c7_missing_dir_behavior "/scn" "main" [("ma", "maya")] (fun _ => none)
      (.ok [⟨"x.txt", false⟩])).2 "main"⟩

/-! ### Claim C8: entry ordering with missing or equal properties -/

lemma goCompareList_self (cs : List Char) : goCompareList cs cs = 0 := by
  induction cs with
  | nil => rfl
  | cons c rest ih => simp [goCompareList, ih]

lemma goCompare_self (s : String) : goCompare s s = 0 :=
  goCompareList_self s.toList

/-- Claim C8, as stated, is false in two ways.  With a descending rule
(`-rank`), an entry missing the property sorts after one that has it (the
comparator's ascending forcing covers only the empty-value comparison, not
the nil-property one), and two entries with equal property values fall back
to Name in the configured direction, not always ascending. -/
theorem c8_counterexample :
    (entryLess [("t", ⟨"rank", true⟩)] ⟨"t", "x", []⟩ ⟨"t", "y", [("rank", ⟨"int", "1"⟩)]⟩ = false
      ∧ entryLess [("t", ⟨"rank", true⟩)] ⟨"t", "y", [("rank", ⟨"int", "1"⟩)]⟩ ⟨"t", "x", []⟩ = true)
    ∧ entryLess [("t", ⟨"rank", true⟩)]
        ⟨"t", "a", [("rank", ⟨"int", "1"⟩)]⟩ ⟨"t", "b", [("rank", ⟨"int", "1"⟩)]⟩ = false :=
  ⟨⟨by decide, by decide⟩, by decide⟩

/-- Claim C8 (amended): for same-typed entries under a configured sort rule,
when exactly one of the two lacks the configured property, the lacking entry
sorts before the present one under an ascending rule and after it under a
descending rule; entries with equal property values fall back to Name in the
rule's direction. -/
theorem c8_missing_property_order (sorters : List (String × Sorter)) (a b : Entry)
    (htyp : a.typ = b.typ) :
    ((sorterFor sorters a.typ).property ≠ "" →
      lookupProp a (sorterFor sorters a.typ).property = none →
      (∃ pv, lookupProp b (sorterFor sorters a.typ).property = some pv) →
      (entryLess sorters a b = ! (sorterFor sorters a.typ).descending
        ∧ entryLess sorters b a = (sorterFor sorters a.typ).descending))
    ∧ (∀ pa pb,
        lookupProp a (sorterFor sorters a.typ).property = some pa →
        lookupProp b (sorterFor sorters a.typ).property = some pb →
        pa = pb → goCompare a.name b.name < 0 →
        entryLess sorters a b = ! (sorterFor sorters a.typ).descending) := by
  have htc : goCompare a.typ b.typ = 0 := htyp ▸ goCompare_self a.typ
  have htc' : goCompare b.typ a.typ = 0 := htyp ▸ goCompare_self a.typ
  have hsorter : sorterFor sorters b.typ = sorterFor sorters a.typ := by rw [htyp]
  constructor
  · intro hp ha hb
    obtain ⟨pv, hb⟩ := hb
    constructor
    · rw [entryLess]
      simp only [htc, ne_eq, not_true_eq_false, if_neg, not_not, if_pos rfl]
      rw [entryPropCmp]
      simp only [if_neg hp, ha, hb]
      rcases hdesc : (sorterFor sorters a.typ).descending with _ | _ <;>
        simp [hdesc]
    · rw [entryLess]
      simp only [htc', ne_eq, not_true_eq_false, if_neg, not_not, if_pos rfl]
      rw [hsorter, entryPropCmp]
      simp only [if_neg hp, ha, hb]
      rcases hdesc : (sorterFor sorters a.typ).descending with _ | _ <;>
        simp [hdesc]
  · intro pa pb hpa hpb heq hname
    subst heq
    rw [entryLess]
    simp only [htc, ne_eq, not_true_eq_false, if_neg, not_not, if_pos rfl]
    rw [entryPropCmp]
    by_cases hp : (sorterFor sorters a.typ).property = ""
    · simp only [if_pos hp]
      have hne : goCompare a.name b.name ≠ 0 := by omega
      rcases hdesc : (sorterFor sorters a.typ).descending with _ | _ <;>
        simp [hdesc, hne] <;> omega
    · simp only [if_neg hp, hpa, hpb, goCompare_self, ite_self]
      have hzero :
          ((if pa.val = "" then (1 : Int) else 0) - (if pa.val = "" then 1 else 0)) = 0 := by
        split <;> ring
      have hne : goCompare a.name b.name ≠ 0 := by omega
      rcases hdesc : (sorterFor sorters a.typ).descending with _ | _ <;>
        simp [hdesc, hzero, hne] <;> omega

/-- Witness for `c8_missing_property_order`: under an ascending rule a
missing-property entry sorts before a present-property one. -/
theorem c8_witness :
    entryLess [("t", ⟨"rank", false⟩)] ⟨"t", "x", []⟩ ⟨"t", "y", [("rank", ⟨"int", "1"⟩)]⟩ = true
      ∧ entryLess [("t", ⟨"rank", false⟩)] ⟨"t", "y", [("rank", ⟨"int", "1"⟩)]⟩ ⟨"t", "x", []⟩ = false := by
  have h := (c8_missing_property_order [("t", ⟨"rank", false⟩)]
      ⟨"t", "x", []⟩ ⟨"t", "y", [("rank", ⟨"int", "1"⟩)]⟩ rfl).1
      (by decide) (by decide) ⟨⟨"int", "1"⟩, by decide⟩
  simpa using h

/-! ### Claim C2: next-version selection of `NewElement` -/

lemma findFreeScene_sound (r : String → String) (st : String → Bool) (p : String) (nd : Nat) :
    ∀ (fuel : Nat) (n : Int) (s : String), findFreeScene r st p nd fuel n = some s →
      ∃ m : Int, n ≤ m ∧ s = r (renderVer p nd m) ∧ st s = false
        ∧ ∀ j : Int, n ≤ j → j < m → st (r (renderVer p nd j)) = true := by
  intro fuel
  induction fuel with
  | zero =>
    intro n s h
    simp [findFreeScene] at h
  | succ f ih =>
    intro n s h
    rw [findFreeScene] at h
    by_cases hst : st (r (renderVer p nd n)) = true
    · rw [if_neg (by simp [hst])] at h
      obtain ⟨m, hm1, hm2, hm3, hm4⟩ := ih (n + 1) s h
      refine ⟨m, by omega, hm2, hm3, ?_⟩
      intro j hj1 hj2
      by_cases hjn : j = n
      · rw [hjn]; exact hst
      · exact hm4 j (by omega) hj2
    · rw [if_pos (by simp at hst; simp [hst])] at h
      cases h
      exact ⟨n, le_refl n, rfl, by simp at hst; simp [hst], fun j hj1 hj2 => absurd hj1 (by omega)⟩

/-- Claim C2: when `LastVersionOfElement` returns a version token whose
number parses (after stripping the `"v"` prefix) as `n`, the first candidate
number is `n + 1`, ignoring gaps and the configured default; on the
element-does-not-exist condition the candidate starts from the configured
default; and the chosen creation target is the first candidate scene,
numbers increasing from the start, whose file does not yet exist on disk. -/
theorem c2_next_version (newVer : String) (last : Except ScanErr String)
    (renderScene : String → String) (stat : String → Bool) (fuel : Nat) :
    (∀ l n, last = .ok l → goAtoi (goTrimPre "v" l) = some n →
        newElementStart (newVerScheme newVer).2 last = .ok (n + 1))
    ∧ (∀ e, last = .error (.elemNotExist e) →
        newElementStart (newVerScheme newVer).2 last
          = .ok ((goAtoi (newVerScheme newVer).2).getD 0))
    ∧ (∀ start s, newElementStart (newVerScheme newVer).2 last = .ok start →
        newElementScene newVer last renderScene stat fuel = .ok (some s) →
        ∃ n : Int, start ≤ n
          ∧ s = renderScene (renderVer (newVerScheme newVer).1 (newVerScheme newVer).2.toList.length n)
          ∧ stat s = false
          ∧ ∀ m : Int, start ≤ m → m < n →
              stat (renderScene
                (renderVer (newVerScheme newVer).1 (newVerScheme newVer).2.toList.length m)) = true) := by
  refine ⟨?_, ?_, ?_⟩
  · intro l n hl hn
    subst hl
    rw [newElementStart]
    by_cases hl0 : l = ""
    · subst hl0
      rw [show goTrimPre "v" "" = "" from rfl] at hn
      simp [goAtoi] at hn
    · rw [if_neg hl0, hn]
  · intro e he
    subst he
    rfl
  · intro start s hstart hscene
    rw [newElementScene, hstart] at hscene
    have hfind : findFreeScene renderScene stat (newVerScheme newVer).1
        (newVerScheme newVer).2.toList.length fuel start = some s := by
      injection hscene
    exact findFreeScene_sound renderScene stat (newVerScheme newVer).1
      (newVerScheme newVer).2.toList.length fuel start s hfind

/-- Witness for `c2_next_version`: a directory holding `v001` and `v003`
(`LastVersionOfElement` returned `"v003"`) yields next candidate number 4
and target `v004`; a missing element starts from the default `v001`. -/
theorem c2_witness :
    newElementStart (newVerScheme "").2 (.ok "v003") = .ok 4
      ∧ newElementStart (newVerScheme "").2 (.error (.elemNotExist "main"))
          = .ok ((goAtoi (newVerScheme "").2).getD 0)
      ∧ (goAtoi (newVerScheme "").2).getD 0 = 1
      ∧ ∃ n : Int, (4 : Int) ≤ n
          ∧ "/d/a_v004.ma"
              = (fun v => "/d/a_" ++ v ++ ".ma")
                  (renderVer (newVerScheme "").1 (newVerScheme "").2.toList.length n)
          ∧ (fun sc => sc = "/d/a_v001.ma" || sc = "/d/a_v003.ma") "/d/a_v004.ma" = false
          ∧ ∀ m : Int, (4 : Int) ≤ m → m < n →
              (fun sc => sc = "/d/a_v001.ma" || sc = "/d/a_v003.ma")
                  ((fun v => "/d/a_" ++ v ++ ".ma")
                    (renderVer (newVerScheme "").1 (newVerScheme "").2.toList.length m)) = true :=
  ⟨(c2_next_version "" (.ok "v003") (fun v => "/d/a_" ++ v ++ ".ma")
      (fun sc => sc = "/d/a_v001.ma" || sc = "/d/a_v003.ma") 10).1 "v003" 3 rfl (by decide),
    (c2_next_version "" (.error (.elemNotExist "main")) (fun v => "/d/a_" ++ v ++ ".ma")
      (fun sc => sc = "/d/a_v001.ma" || sc = "/d/a_v003.ma") 10).2.1 "main" rfl,
    by decide,
    (c2_next_version "" (.ok "v003") (fun v => "/d/a_" ++ v ++ ".ma")
      (fun sc => sc = "/d/a_v001.ma" || sc = "/d/a_v003.ma") 10).2.2 4 "/d/a_v004.ma"
      (by decide) (by decide)⟩

/-! ### Claim C9: `GoTo` truncates the forward branch -/

/-- Claim C9: a successful `GoTo` to a genuinely new path truncates the
history to `idx+1` entries, appends the normalized path, and sets the index
to the last position; consequently the scenario `/ → /a → /b → back → /c`
leaves history `[/, /a, /c]` with the index at `/c`, and a following
`GoForward` is a no-op that reports no next entry. -/
theorem c9_goto_truncation :
    (∀ (fetch load : String → Bool) (s : Nav) (p : String),
        p ≠ "" → normPath p ≠ s.path → fetch (normPath p) = true → 0 ≤ s.historyIdx →
        (goTo fetch load s p).1.history = s.history.take (s.historyIdx + 1).toNat ++ [normPath p]
          ∧ (goTo fetch load s p).1.historyIdx
              = ((s.history.take (s.historyIdx + 1).toNat ++ [normPath p]).length : Int) - 1
          ∧ (goTo fetch load s p).1.path = normPath p)
    ∧ ((goTo (fun _ => true) (fun _ => true)
            (goBack (fun _ => true) (fun _ => true)
              (goTo (fun _ => true) (fun _ => true)
                (goTo (fun _ => true) (fun _ => true) ⟨["/"], 0, "/"⟩ "/a").1 "/b").1).1 "/c").1
          = ⟨["/", "/a", "/c"], 2, "/c"⟩
        ∧ goForward (fun _ => true) (fun _ => true) ⟨["/", "/a", "/c"], 2, "/c"⟩
            = (⟨["/", "/a", "/c"], 2, "/c"⟩, some .noNextEntry)) := by
  constructor
  · intro fetch load s p hp hne hfetch hidx
    have htrunc :
        (if (s.history.length : Int) > s.historyIdx + 1
            then s.history.take (s.historyIdx + 1).toNat else s.history)
          = s.history.take (s.historyIdx + 1).toNat := by
      by_cases hlen : (s.history.length : Int) > s.historyIdx + 1
      · rw [if_pos hlen]
      · rw [if_neg hlen, List.take_of_length_le]
        omega
    have hlen1 :
        ((s.history.take (s.historyIdx + 1).toNat ++ [normPath p]).length : Int) - 1
          = ((s.history.take (s.historyIdx + 1).toNat).length : Int) := by
      simp
    have hget :
        (s.history.take (s.historyIdx + 1).toNat ++ [normPath p]).getD
            (((s.history.take (s.historyIdx + 1).toNat ++ [normPath p]).length : Int) - 1).toNat ""
          = normPath p := by
      rw [hlen1]
      simp only [Int.toNat_natCast, List.getD_eq_getElem?_getD, List.getElem?_concat_length, Option.getD_some]
    have hres : (goTo fetch load s p).1
        = ⟨s.history.take (s.historyIdx + 1).toNat ++ [normPath p],
           ((s.history.take (s.historyIdx + 1).toNat ++ [normPath p]).length : Int) - 1,
           (s.history.take (s.historyIdx + 1).toNat ++ [normPath p]).getD
             (((s.history.take (s.historyIdx + 1).toNat ++ [normPath p]).length : Int) - 1).toNat ""⟩ := by
      rw [goTo, if_neg hp, if_neg hne]
      simp only [hfetch, eq_self_iff_true, not_true, if_false, htrunc]
      by_cases hl : load (normPath p) = true
      · rw [if_pos hl]
      · rw [if_neg hl]
    exact ⟨by rw [hres], by rw [hres], by rw [hres]; exact hget⟩
  · exact ⟨by decide, by decide⟩

/-- Witness for `c9_goto_truncation` at a concrete input. -/
theorem c9_witness :
    (goTo (fun _ => true) (fun _ => true) ⟨["/", "/a", "/b"], 1, "/a"⟩ "/c").1.history
        = (["/", "/a", "/b"].take 2 ++ ["/c"])
      ∧ (goTo (fun _ => true) (fun _ => true) ⟨["/", "/a", "/b"], 1, "/a"⟩ "/c").1.path = "/c" := by
  have h := c9_goto_truncation.1 (fun _ => true) (fun _ => true)
    ⟨["/", "/a", "/b"], 1, "/a"⟩ "/c" (by decide) (by decide) rfl (by decide)
  exact ⟨h.1, h.2.2⟩

/-! ### Claim C1: version parsing and ordering in the scanners -/

lemma verLEr_iff (a b : Version) :
    verLEr a b ↔ b.num < a.num ∨ (a.num = b.num ∧ b.name.toList.length ≤ a.name.toList.length) := by
  rw [verLEr, verLE, verLess]
  by_cases h : a.num = b.num
  · rw [if_neg (by omega)]
    simp
    omega
  · rw [if_pos (by omega)]
    simp
    omega

instance : IsTotal Version verLEr :=
  ⟨fun a b => by rw [verLEr_iff, verLEr_iff]; omega⟩

instance : IsTrans Version verLEr :=
  ⟨fun a b c hab hbc => by rw [verLEr_iff] at hab hbc ⊢; omega⟩

lemma verLEr_refl (a : Version) : verLEr a a := by
  rw [verLEr_iff]
  omega

/-- Every version record accumulated by the `ListElements` scan step has its
`Num` computed from its raw token by `goVerNum`. -/
lemma addScan_num_inv (sceneDir : String) (programs : List (String × String))
    (matchOf : String → Option GroupMatch) (acc : List (String × Elem)) (f : DirEnt)
    (hacc : ∀ kv ∈ acc, ∀ v ∈ kv.2.versions, v.num = goVerNum v.name) :
    ∀ kv ∈ addScan sceneDir programs matchOf acc f, ∀ v ∈ kv.2.versions, v.num = goVerNum v.name := by
  intro kv hkv v hv
  rw [addScan] at hkv
  by_cases hdir : f.isDir
  · rw [if_pos hdir] at hkv
    exact hacc kv hkv v hv
  · rw [if_neg hdir] at hkv
    by_cases hextra : ((matchOf f.name).getD ⟨"", "", "", ""⟩).extra ≠ ""
    · rw [if_pos hextra] at hkv
      exact hacc kv hkv v hv
    · rw [if_neg hextra] at hkv
      rcases hprog : programOf programs ((matchOf f.name).getD ⟨"", "", "", ""⟩).ext with _ | prog
      · rw [hprog] at hkv
        exact hacc kv hkv v hv
      · rw [hprog] at hkv
        dsimp only at hkv
        rcases hfind : acc.find? (fun kv' =>
            kv'.1 = ((matchOf f.name).getD ⟨"", "", "", ""⟩).el ++ "/" ++ prog) with _ | kvf
        · rw [hfind] at hkv
          dsimp only at hkv
          rcases List.mem_append.mp hkv with hin | hnew
          · exact hacc kv hin v hv
          · rcases List.mem_singleton.mp hnew with rfl
            rcases List.mem_singleton.mp hv with rfl
            rfl
        · rw [hfind] at hkv
          dsimp only at hkv
          obtain ⟨kv', hkv', hmap⟩ := List.mem_map.mp hkv
          by_cases heq : kv'.1 = ((matchOf f.name).getD ⟨"", "", "", ""⟩).el ++ "/" ++ prog
          · rw [if_pos heq] at hmap
            subst hmap
            rcases List.mem_append.mp hv with hold | hnew
            · exact hacc kvf (List.mem_of_find?_eq_some hfind) v hold
            · rcases List.mem_singleton.mp hnew with rfl
              rfl
          · rw [if_neg heq] at hmap
            subst hmap
            exact hacc kv' hkv' v hv

lemma scanFold_num_inv (sceneDir : String) (programs : List (String × String))
    (matchOf : String → Option GroupMatch) :
    ∀ (fs : List DirEnt) (acc : List (String × Elem)),
      (∀ kv ∈ acc, ∀ v ∈ kv.2.versions, v.num = goVerNum v.name) →
      ∀ kv ∈ fs.foldl (addScan sceneDir programs matchOf) acc,
        ∀ v ∈ kv.2.versions, v.num = goVerNum v.name := by
  intro fs
  induction fs with
  | nil => intro acc hacc; exact hacc
  | cons f rest ih =>
    intro acc hacc
    exact ih _ (addScan_num_inv sceneDir programs matchOf acc f hacc)

lemma lastVersionVers_num_inv (matchOf : String → Option GroupMatch) :
    ∀ (fs : List DirEnt) (acc : List Version),
      (∀ v ∈ acc, v.num = goVerNum v.name) →
      ∀ v ∈ fs.foldl (fun acc f =>
          if f.isDir then acc else
          match matchOf f.name with
          | none => acc
          | some m => acc ++ [⟨m.ver, goVerNum m.ver, ""⟩]) acc,
        v.num = goVerNum v.name := by
  intro fs
  induction fs with
  | nil => intro acc hacc; exact hacc
  | cons f rest ih =>
    intro acc hacc
    refine ih _ ?_
    intro v hv
    dsimp only at hv
    by_cases hdir : f.isDir
    · rw [if_pos hdir] at hv
      exact hacc v hv
    · rw [if_neg hdir] at hv
      rcases hm : matchOf f.name with _ | m
      · rw [hm] at hv
        exact hacc v hv
      · rw [hm] at hv
        rcases List.mem_append.mp hv with hold | hnew
        · exact hacc v hold
        · rcases List.mem_singleton.mp hnew with rfl
          rfl

/-- The descending order the claims describe: `Num` descending, ties broken
by preferring the longer raw token. -/
def verDescOrder (a b : Version) : Prop :=
  b.num < a.num ∨ (a.num = b.num ∧ b.name.toList.length ≤ a.name.toList.length)

/-- Claim C1 (amended): every `Version` produced by `ListElements` or
accumulated by `LastVersionOfElement` has `Num` equal to `goVerNum` of its
raw token — the integer parsed after stripping a leading lowercase `"v"`
only (a leading `"V"` is not stripped, so such tokens fail the parse and get
the sentinel -1) — and version lists are ordered by `Num` descending with
ties preferring the longer raw token, so sentinel versions sort after any
version with a nonnegative number; `LastVersionOfElement` returns the token
of a version maximal in that order. -/
theorem c1_version_parse_and_order (sceneDir elem : String)
    (programs : List (String × String)) (matchOf : String → Option GroupMatch)
    (files : Except ReadDirErr (List DirEnt)) :
    (∀ es, listElements sceneDir programs matchOf files = .ok es →
      ∀ e ∈ es, (∀ v ∈ e.versions, v.num = goVerNum v.name)
        ∧ e.versions.Pairwise verDescOrder)
    ∧ (∀ fs t, files = .ok fs →
        lastVersionOfElement sceneDir elem matchOf files = .ok t →
        ∃ v, v ∈ lastVersionVers matchOf fs ∧ v.name = t ∧ v.num = goVerNum v.name
          ∧ ∀ w ∈ lastVersionVers matchOf fs, verDescOrder v w) := by
  constructor
  · intro es hes e he
    cases files with
    | error err =>
      cases err with
      | notExist =>
        rw [listElements] at hes
        injection hes with h
        subst h
        cases he
      | other msg =>
        rw [listElements] at hes
        cases hes
    | ok fs =>
      rw [listElements] at hes
      injection hes with h
      subst h
      have he' : e ∈ ((fs.foldl (addScan sceneDir programs matchOf) []).map (·.2)).map
          (fun e => { e with versions := sortVersions e.versions }) :=
        ((List.perm_insertionSort elemLEr _).mem_iff).mp he
      obtain ⟨e₀, he₀, rfl⟩ := List.mem_map.mp he'
      obtain ⟨kv, hkv, rfl⟩ := List.mem_map.mp he₀
      constructor
      · intro v hv
        have hv₀ : v ∈ kv.2.versions :=
          ((List.perm_insertionSort verLEr _).mem_iff).mp hv
        exact scanFold_num_inv sceneDir programs matchOf fs [] (by intro kv' h; cases h)
          kv hkv v hv₀
      · have hsorted : (sortVersions kv.2.versions).Pairwise verLEr :=
          List.sorted_insertionSort verLEr kv.2.versions
        exact hsorted.imp (fun hab => by rw [verDescOrder, ← verLEr_iff]; exact hab)
  · intro fs t hfs ht
    subst hfs
    rw [lastVersionOfElement] at ht
    by_cases hv : lastVersionVers matchOf fs = []
    · rw [if_pos hv] at ht
      cases ht
    · rw [if_neg hv] at ht
      injection ht with hname
      have hsvne : sortVersions (lastVersionVers matchOf fs) ≠ [] := by
        intro hnil
        have hlen := (List.perm_insertionSort verLEr (lastVersionVers matchOf fs)).length_eq
        rw [sortVersions] at hnil
        rw [hnil] at hlen
        exact hv (List.eq_nil_of_length_eq_zero hlen.symm)
      obtain ⟨h0, tl, hsv⟩ := List.exists_cons_of_ne_nil hsvne
      have hh0 : h0 ∈ lastVersionVers matchOf fs := by
        refine ((List.perm_insertionSort verLEr _).mem_iff).mp ?_
        rw [show List.insertionSort verLEr (lastVersionVers matchOf fs)
            = sortVersions (lastVersionVers matchOf fs) from rfl, hsv]
        exact List.mem_cons_self h0 tl
      have hsorted : (sortVersions (lastVersionVers matchOf fs)).Pairwise verLEr :=
        List.sorted_insertionSort verLEr (lastVersionVers matchOf fs)
      refine ⟨h0, hh0, ?_, ?_, ?_⟩
      · rw [hsv] at hname
        exact hname
      · exact lastVersionVers_num_inv matchOf fs [] (by intro v hv'; cases hv') h0 hh0
      · intro w hw
        have hw' : w ∈ sortVersions (lastVersionVers matchOf fs) :=
          ((List.perm_insertionSort verLEr _).mem_iff).mpr hw
        rw [hsv] at hw' hsorted
        rcases List.mem_cons.mp hw' with rfl | hwtl
        · rw [verDescOrder, ← verLEr_iff]
          exact verLEr_refl w
        · rw [verDescOrder, ← verLEr_iff]
          exact (List.pairwise_cons.mp hsorted).1 w hwtl

/-- Claim C1, as stated, is false on uppercase tokens: the scanners strip
only a lowercase `"v"`, so a matched token `"V002"` (which the
`LastVersionOfElement` capture pattern `[vV]\d+` can produce) yields the
sentinel -1 where the claim requires 2. -/
theorem c1_counterexample :
    listElements "/d" [("ma", "maya")]
        (fun n => if n = "a_V002.ma" then some ⟨"main", "V002", "ma", ""⟩ else none)
        (.ok [⟨"a_V002.ma", false⟩])
      = .ok [⟨"main", "maya", [⟨"V002", -1, "/d/a_V002.ma"⟩]⟩]
      ∧ specVerNum "V002" = 2 ∧ (-1 : Int) ≠ 2 :=
  ⟨by decide, by decide, by decide⟩

/-- Witness for `c1_version_parse_and_order` at a concrete scan: `v9` and
`v009` both parse to 9 and the longer token sorts first. -/
theorem c1_witness :
    (∀ v ∈ [(⟨"v009", 9, "/d/a_v009.ma"⟩ : Version), ⟨"v9", 9, "/d/a_v9.ma"⟩],
        v.num = goVerNum v.name)
      ∧ List.Pairwise verDescOrder
          [(⟨"v009", 9, "/d/a_v009.ma"⟩ : Version), ⟨"v9", 9, "/d/a_v9.ma"⟩] := by
  have h := (c1_version_parse_and_order "/d" "main" [("ma", "maya")]
      (fun n => if n = "a_v9.ma" then some ⟨"main", "v9", "ma", ""⟩
        else if n = "a_v009.ma" then some ⟨"main", "v009", "ma", ""⟩ else none)
      (.ok [⟨"a_v9.ma", false⟩, ⟨"a_v009.ma", false⟩])).1
      [⟨"main", "maya", [⟨"v009", 9, "/d/a_v009.ma"⟩, ⟨"v9", 9, "/d/a_v9.ma"⟩]⟩]
      (by decide) ⟨"main", "maya", [⟨"v009", 9, "/d/a_v009.ma"⟩, ⟨"v9", 9, "/d/a_v9.ma"⟩]⟩
      (by decide)
  exact h

/-! ### Claims C4/C5: structure of the leftmost-reference search -/

lemma wordRun_le_length (l : List Char) : wordRun l ≤ l.length := by
  induction l with
  | nil => simp [wordRun]
  | cons c rest ih =>
    rw [wordRun]
    split
    · simp only [List.length_cons]
      omega
    · simp

lemma wordRun_take_all (l : List Char) : ∀ c ∈ l.take (wordRun l), isWordChar c := by
  induction l with
  | nil => simp [wordRun]
  | cons c rest ih =>
    rw [wordRun]
    by_cases hc : isWordChar c
    · rw [if_pos hc]
      intro c' hc'
      rcases List.mem_cons.mp (by simpa [List.take_succ_cons] using hc') with rfl | hmem
      · exact hc
      · exact ih c' hmem
    · rw [if_neg hc]
      simp

lemma wordRun_boundary (l : List Char) : ∀ c, l[wordRun l]? = some c → ¬ isWordChar c = true := by
  induction l with
  | nil => simp
  | cons c rest ih =>
    rw [wordRun]
    by_cases hc : isWordChar c
    · rw [if_pos hc]
      intro c' hc'
      exact ih c' (by simpa using hc')
    · rw [if_neg hc]
      intro c' hc'
      simp only [List.getElem?_cons_zero, Option.some_inj] at hc'
      subst hc'
      simp [hc]

lemma wordRun_pos (l : List Char) (c : Char) (h0 : l[0]? = some c) (hc : isWordChar c) :
    0 < wordRun l := by
  cases l with
  | nil => simp at h0
  | cons c' rest =>
    simp only [List.getElem?_cons_zero, Option.some_inj] at h0
    subst h0
    rw [wordRun, if_pos hc]
    omega

lemma wordRun_eq_of (l : List Char) (k : Nat)
    (hall : ∀ i < k, ∃ c, l[i]? = some c ∧ isWordChar c)
    (hend : ∀ c, l[k]? = some c → ¬ isWordChar c = true) :
    wordRun l = k := by
  induction l generalizing k with
  | nil =>
    cases k with
    | zero => rfl
    | succ k' =>
      obtain ⟨c, hc, -⟩ := hall 0 (by omega)
      simp at hc
  | cons c rest ih =>
    cases k with
    | zero =>
      have := hend c (by simp)
      rw [wordRun, if_neg (by simpa using this)]
    | succ k' =>
      obtain ⟨c0, hc0, hw0⟩ := hall 0 (by omega)
      simp only [List.getElem?_cons_zero, Option.some_inj] at hc0
      subst hc0
      rw [wordRun, if_pos hw0, ih k']
      · intro i hi
        obtain ⟨c', hc', hw'⟩ := hall (i + 1) (by omega)
        exact ⟨c', by simpa using hc', hw'⟩
      · intro c' hc'
        exact hend c' (by simpa using hc')

lemma seg_cons_shift (c : Char) (v : List Char) (a b : Nat) :
    seg (c :: v) (a + 1) (b + 1) = seg v a b := by
  simp [seg, List.take_succ_cons]

lemma seg_getElem (v : List Char) (a b i : Nat) (h : a + i < b) :
    (seg v a b)[i]? = v[a + i]? := by
  rw [seg, List.getElem?_drop, List.getElem?_take, if_pos h]

lemma seg_ne_nil_lt (v : List Char) (a b : Nat) (h : seg v a b ≠ []) : a < b := by
  by_contra hab
  refine h (List.eq_nil_of_length_eq_zero ?_)
  rw [seg, List.length_drop, List.length_take]
  omega

lemma seg_head (v : List Char) (a b : Nat) (c0 : Char) (w' : List Char)
    (h : seg v a b = c0 :: w') : v[a]? = some c0 := by
  have hlt : a < b := seg_ne_nil_lt v a b (by rw [h]; simp)
  have := seg_getElem v a b 0 (by omega)
  rw [h] at this
  simpa using this.symm

lemma seg_length (v : List Char) (a b : Nat) :
    (seg v a b).length = min b v.length - a := by
  rw [seg, List.length_drop, List.length_take]

lemma seg_expand (v : List Char) (s e : Nat) (c : Char) (hse : s < e) (hs : v[s]? = some c) :
    seg v s e = c :: seg v (s + 1) e := by
  have hsl : s < v.length := by
    by_contra hc
    rw [List.getElem?_eq_none (by omega)] at hs
    cases hs
  have hst : s < (v.take e).length := by
    rw [List.length_take]
    omega
  rw [seg, seg, List.drop_eq_getElem_cons hst]
  congr 1
  have h1 : (v.take e)[s]? = some c := by
    rw [List.getElem?_take, if_pos hse, hs]
  have h2 : (v.take e)[s]? = some ((v.take e)[s]) := List.getElem?_eq_getElem hst
  rw [h1] at h2
  exact (Option.some_inj.mp h2).symm

lemma take_seg_drop (v : List Char) (s e : Nat) (hse : s ≤ e) :
    v.take s ++ seg v s e ++ v.drop e = v := by
  have h1 : v.take s ++ seg v s e = v.take e := by
    rw [seg]
    conv_rhs => rw [← List.take_append_drop s (v.take e)]
    rw [List.take_take, min_eq_left hse]
  rw [h1, List.take_append_drop]

lemma refKey_word (w : List Char) (hw : w ≠ []) (hall : ∀ c ∈ w, isWordChar c) :
    refKeyOf w = String.mk w := by
  obtain ⟨c0, w', rfl⟩ := List.exists_cons_of_ne_nil hw
  have hc0 : isWordChar c0 := hall c0 (List.mem_cons_self c0 w')
  have hc0ne : ¬ ('{' == c0) = true := by
    intro h
    rw [show c0 = '{' from (beq_iff_eq.mp h).symm] at hc0
    simp [isWordChar] at hc0
  have hpre : goTrimPre "\x7b" (String.mk (c0 :: w')) = String.mk (c0 :: w') := by
    rw [goTrimPre, if_neg]
    intro h
    rw [show ("\x7b" : String).toList = ['{'] from rfl,
      show (String.mk (c0 :: w')).toList = c0 :: w' from rfl] at h
    simp only [List.isPrefixOf, Bool.and_eq_true] at h
    exact hc0ne h.1
  rw [refKeyOf, hpre, goTrimSuf, if_neg]
  intro h
  rw [show ("\x7d" : String).toList = ['}'] from rfl,
    show (String.mk (c0 :: w')).toList = c0 :: w' from rfl] at h
  obtain ⟨cl, r', hr⟩ := List.exists_cons_of_ne_nil
    (show (c0 :: w').reverse ≠ [] by simp)
  rw [hr] at h
  simp only [List.isPrefixOf, Bool.and_eq_true] at h
  have hcl : cl ∈ c0 :: w' := by
    rw [← List.mem_reverse, hr]
    exact List.mem_cons_self cl r'
  have := hall cl hcl
  rw [show cl = '}' from (beq_iff_eq.mp h.1).symm] at this
  simp [isWordChar] at this

lemma refKey_braced (w : List Char) :
    refKeyOf ('{' :: w ++ ['}']) = String.mk w := by
  have hpre : goTrimPre "\x7b" (String.mk ('{' :: w ++ ['}'])) = String.mk (w ++ ['}']) := by
    rw [goTrimPre, if_pos]
    · rfl
    · rw [show ("\x7b" : String).toList = ['{'] from rfl,
        show (String.mk ('{' :: w ++ ['}'])).toList = '{' :: (w ++ ['}']) from rfl]
      simp [List.isPrefixOf]
  rw [refKeyOf, hpre, goTrimSuf, if_pos]
  · rw [show (String.mk (w ++ ['}'])).toList = w ++ ['}'] from rfl,
      show ("\x7d" : String).toList = ['}'] from rfl]
    simp only [List.length_append, List.length_singleton]
    rw [show w.length + 1 - 1 = w.length from by omega]
    rw [List.take_left]
  · rw [show (String.mk (w ++ ['}'])).toList = w ++ ['}'] from rfl,
      show ("\x7d" : String).toList = ['}'] from rfl]
    simp [List.isPrefixOf]

lemma refA_shift_iff (c : Char) (v : List Char) (s e : Nat) (w : List Char) :
    RefA (c :: v) (s + 1) (e + 1) w ↔ RefA v s e w := by
  rw [RefA, RefA, List.getElem?_cons_succ, List.getElem?_cons_succ, seg_cons_shift,
    List.length_cons]
  constructor
  · rintro ⟨h1, h2, h3, h4, h5, h6⟩
    exact ⟨h1, by omega, h3, h4, h5, h6⟩
  · rintro ⟨h1, h2, h3, h4, h5, h6⟩
    exact ⟨h1, by omega, h3, h4, h5, h6⟩

lemma refB_shift_iff (c : Char) (v : List Char) (s e : Nat) (w : List Char) :
    RefB (c :: v) (s + 1) (e + 1) w ↔ RefB v s e w := by
  rw [RefB, RefB, List.getElem?_cons_succ, seg_cons_shift, List.length_cons]
  constructor
  · rintro ⟨h1, h2, h3, h4, h5⟩
    exact ⟨h1, by omega, h3, h4, h5⟩
  · rintro ⟨h1, h2, h3, h4, h5⟩
    exact ⟨h1, by omega, h3, h4, h5⟩

lemma refA_head (rest : List Char) (hw : 0 < wordRun rest) :
    RefA ('$' :: rest) 0 (1 + wordRun rest) (rest.take (wordRun rest)) := by
  refine ⟨by simp, ?_, ?_, ?_, wordRun_take_all rest, ?_⟩
  · simp only [List.length_cons]
    have := wordRun_le_length rest
    omega
  · rw [seg, show (1 : Nat) + wordRun rest = wordRun rest + 1 from by omega,
      List.take_succ_cons]
    simp
  · intro hnil
    have hlen := congrArg List.length hnil
    rw [List.length_take, List.length_nil] at hlen
    have := wordRun_le_length rest
    omega
  · intro ch hch
    rw [show (1 : Nat) + wordRun rest = wordRun rest + 1 from by omega,
      List.getElem?_cons_succ] at hch
    exact wordRun_boundary rest ch hch

lemma no_refA_at_zero (c : Char) (rest : List Char)
    (h : ¬(c = '$' ∧ 0 < wordRun rest)) (e : Nat) (w : List Char) :
    ¬ RefA (c :: rest) 0 e w := by
  rintro ⟨h1, h2, h3, h4, h5, h6⟩
  simp only [List.getElem?_cons_zero, Option.some_inj] at h1
  obtain ⟨c0, w', rfl⟩ := List.exists_cons_of_ne_nil h4
  have h0 : (c :: rest)[0 + 1]? = some c0 := seg_head _ _ _ _ _ h3
  rw [List.getElem?_cons_succ] at h0
  have hwc : isWordChar c0 := h5 c0 (List.mem_cons_self c0 w')
  exact h ⟨h1, wordRun_pos rest c0 h0 hwc⟩

lemma matchBHead_some_elim (v : List Char) (n : Nat) (h : matchBHead v = some n) :
    ∃ rest, v = '$' :: '{' :: rest ∧ 0 < wordRun rest
      ∧ rest[wordRun rest]? = some '}' ∧ n = wordRun rest + 3 := by
  rcases v with _ | ⟨c0, _ | ⟨c1, rest⟩⟩
  · simp [matchBHead] at h
  · simp [matchBHead] at h
  · rw [matchBHead] at h
    by_cases hc : c0 = '$' ∧ c1 = '{' ∧ 0 < wordRun rest ∧ rest[wordRun rest]? = some '}'
    · rw [if_pos hc] at h
      injection h with h
      exact ⟨rest, by rw [hc.1, hc.2.1], hc.2.2.1, hc.2.2.2, h.symm⟩
    · rw [if_neg hc] at h
      cases h

lemma refB_head (rest : List Char) (h1 : 0 < wordRun rest)
    (h2 : rest[wordRun rest]? = some '}') :
    RefB ('$' :: '{' :: rest) 0 (wordRun rest + 3) (rest.take (wordRun rest)) := by
  have hlt : wordRun rest < rest.length := by
    by_contra hc
    rw [List.getElem?_eq_none (by omega)] at h2
    cases h2
  refine ⟨by simp, ?_, ?_, ?_, wordRun_take_all rest⟩
  · simp only [List.length_cons]
    omega
  · rw [seg, show wordRun rest + 3 = (wordRun rest + 2) + 1 from by omega,
      List.take_succ_cons, show wordRun rest + 2 = (wordRun rest + 1) + 1 from by omega,
      List.take_succ_cons]
    simp only [zero_add, List.drop_succ_cons, List.drop_zero]
    rw [List.take_succ, h2]
    simp
  · intro hnil
    have hlen := congrArg List.length hnil
    rw [List.length_take, List.length_nil] at hlen
    omega

lemma no_refB_at_zero (v : List Char) (h : matchBHead v = none) (e : Nat) (w : List Char) :
    ¬ RefB v 0 e w := by
  rintro ⟨h1, h2, h3, h4, h5⟩
  have hv1 : v[0 + 1]? = some '{' := seg_head _ _ _ _ _ h3
  rcases v with _ | ⟨c0, _ | ⟨c1, rest⟩⟩
  · simp at h1
  · simp at hv1
  · simp only [List.getElem?_cons_zero, Option.some_inj] at h1
    rw [List.getElem?_cons_succ, List.getElem?_cons_zero, Option.some_inj] at hv1
    subst h1
    subst hv1
    have hlen : (seg ('$' :: '{' :: rest) 1 e).length = w.length + 2 := by
      rw [h3]
      simp
    rw [seg_length, List.length_cons, List.length_cons] at hlen
    have hbound : w.length + 3 ≤ e ∧ w.length + 1 ≤ rest.length := by omega
    have hchars : ∀ i < w.length, ∃ ch, rest[i]? = some ch ∧ isWordChar ch := by
      intro i hi
      have hseg := seg_getElem ('$' :: '{' :: rest) 1 e (i + 1) (by omega)
      rw [h3] at hseg
      have hw : ('{' :: (w ++ ['}']))[i + 1]? = w[i]? := by
        rw [List.getElem?_cons_succ, List.getElem?_append, if_pos hi]
      have hcomb : w[i]? = ('$' :: '{' :: rest)[1 + (i + 1)]? := hw.symm.trans hseg
      rw [show (1 : Nat) + (i + 1) = (i + 1) + 1 from by omega, List.getElem?_cons_succ,
        List.getElem?_cons_succ] at hcomb
      have hwi : w[i]? = some w[i] := List.getElem?_eq_getElem hi
      refine ⟨w[i], ?_, h5 _ (List.getElem_mem hi)⟩
      rw [← hcomb, hwi]
    have hbrace : rest[w.length]? = some '}' := by
      have hseg := seg_getElem ('$' :: '{' :: rest) 1 e (w.length + 1) (by omega)
      rw [h3] at hseg
      have hw : ('{' :: (w ++ ['}']))[w.length + 1]? = some '}' := by
        rw [List.getElem?_cons_succ, List.getElem?_concat_length]
      have hcomb : (some '}' : Option Char) = ('$' :: '{' :: rest)[1 + (w.length + 1)]? :=
        hw.symm.trans hseg
      rw [show (1 : Nat) + (w.length + 1) = (w.length + 1) + 1 from by omega,
        List.getElem?_cons_succ, List.getElem?_cons_succ] at hcomb
      exact hcomb.symm
    have hrun : wordRun rest = w.length :=
      wordRun_eq_of rest w.length hchars
        (fun ch hch => by
          rw [hbrace, Option.some_inj] at hch
          subst hch
          decide)
    rw [matchBHead, if_pos ⟨rfl, rfl, by rw [hrun]; exact List.length_pos.mpr h4,
      by rw [hrun]; exact hbrace⟩] at h
    cases h

lemma refA_e_pos (v : List Char) (s e : Nat) (w : List Char) (h : RefA v s e w) :
    s + 1 < e := by
  obtain ⟨-, -, h3, h4, -, -⟩ := h
  exact seg_ne_nil_lt v (s + 1) e (h3 ▸ h4)

lemma refB_e_pos (v : List Char) (s e : Nat) (w : List Char) (h : RefB v s e w) :
    s + 1 < e := by
  obtain ⟨-, -, h3, -, -⟩ := h
  exact seg_ne_nil_lt v (s + 1) e (by rw [h3]; simp)

lemma findA_none (v : List Char) (h : findA v = none) :
    ∀ s e w, ¬ RefA v s e w := by
  induction v with
  | nil =>
    rintro s e w ⟨h1, -⟩
    simp at h1
  | cons c rest ih =>
    intro s e w
    rw [findA] at h
    by_cases hc : c = '$' ∧ 0 < wordRun rest
    · rw [if_pos hc] at h
      cases h
    · rw [if_neg hc] at h
      have hrest : findA rest = none := by
        rcases hfa : findA rest with _ | p
        · rfl
        · rw [hfa] at h
          cases h
      intro href
      rcases s with _ | s'
      · exact no_refA_at_zero c rest hc e w href
      · rcases e with _ | e'
        · have := refA_e_pos _ _ _ _ href
          omega
        · exact ih hrest s' e' w ((refA_shift_iff c rest s' e' w).mp href)

lemma findA_some (v : List Char) :
    ∀ s e, findA v = some (s, e) →
      (∃ w, RefA v s e w) ∧ ∀ s' e' w', s' < s → ¬ RefA v s' e' w' := by
  induction v with
  | nil =>
    intro s e h
    cases h
  | cons c rest ih =>
    intro s e h
    rw [findA] at h
    by_cases hc : c = '$' ∧ 0 < wordRun rest
    · rw [if_pos hc] at h
      injection h with h
      obtain ⟨hs, he⟩ := Prod.mk.inj h
      subst hs
      subst he
      rw [hc.1]
      exact ⟨⟨rest.take (wordRun rest), refA_head rest hc.2⟩,
        fun s' e' w' hs' => absurd hs' (by omega)⟩
    · rw [if_neg hc] at h
      rcases hfa : findA rest with _ | ⟨s₀, e₀⟩
      · rw [hfa] at h
        cases h
      · rw [hfa] at h
        rw [Option.map_some', Option.some_inj] at h
        obtain ⟨hs, he⟩ := Prod.mk.inj h
        subst hs
        subst he
        obtain ⟨⟨w₀, hw₀⟩, hmin⟩ := ih s₀ e₀ hfa
        refine ⟨⟨w₀, (refA_shift_iff c rest s₀ e₀ w₀).mpr hw₀⟩, ?_⟩
        intro s' e' w' hs' href
        rcases s' with _ | s''
        · exact no_refA_at_zero c rest hc e' w' href
        · rcases e' with _ | e''
          · have := refA_e_pos _ _ _ _ href
            omega
          · exact hmin s'' e'' w' (by omega) ((refA_shift_iff c rest s'' e'' w').mp href)

lemma findB_none (v : List Char) (h : findB v = none) :
    ∀ s e w, ¬ RefB v s e w := by
  induction v with
  | nil =>
    rintro s e w ⟨h1, -⟩
    simp at h1
  | cons c rest ih =>
    intro s e w
    rw [findB] at h
    rcases hmb : matchBHead (c :: rest) with _ | n
    · rw [hmb] at h
      have hrest : findB rest = none := by
        rcases hfb : findB rest with _ | p
        · rfl
        · rw [hfb] at h
          cases h
      intro href
      rcases s with _ | s'
      · exact no_refB_at_zero (c :: rest) hmb e w href
      · rcases e with _ | e'
        · have := refB_e_pos _ _ _ _ href
          omega
        · exact ih hrest s' e' w ((refB_shift_iff c rest s' e' w).mp href)
    · rw [hmb] at h
      cases h

lemma findB_some (v : List Char) :
    ∀ s e, findB v = some (s, e) →
      (∃ w, RefB v s e w) ∧ ∀ s' e' w', s' < s → ¬ RefB v s' e' w' := by
  induction v with
  | nil =>
    intro s e h
    cases h
  | cons c rest ih =>
    intro s e h
    rw [findB] at h
    rcases hmb : matchBHead (c :: rest) with _ | n
    · rw [hmb] at h
      rcases hfb : findB rest with _ | ⟨s₀, e₀⟩
      · rw [hfb] at h
        cases h
      · rw [hfb] at h
        rw [Option.map_some', Option.some_inj] at h
        obtain ⟨hs, he⟩ := Prod.mk.inj h
        subst hs
        subst he
        obtain ⟨⟨w₀, hw₀⟩, hmin⟩ := ih s₀ e₀ hfb
        refine ⟨⟨w₀, (refB_shift_iff c rest s₀ e₀ w₀).mpr hw₀⟩, ?_⟩
        intro s' e' w' hs' href
        rcases s' with _ | s''
        · exact no_refB_at_zero (c :: rest) hmb e' w' href
        · rcases e' with _ | e''
          · have := refB_e_pos _ _ _ _ href
            omega
          · exact hmin s'' e'' w' (by omega) ((refB_shift_iff c rest s'' e'' w').mp href)
    · rw [hmb] at h
      injection h with h
      obtain ⟨hs, he⟩ := Prod.mk.inj h
      subst hs
      subst he
      obtain ⟨rest', hv, hrun, hbr, hn⟩ := matchBHead_some_elim (c :: rest) n hmb
      refine ⟨⟨rest'.take (wordRun rest'), ?_⟩, fun s' e' w' hs' => absurd hs' (by omega)⟩
      rw [hv, hn]
      exact refB_head rest' hrun hbr

lemma evalStep_none_iff (env : List String) (v : List Char) :
    evalStep env v = none ↔ findA v = none ∧ findB v = none := by
  rw [evalStep]
  rcases hfa : findA v with _ | a <;> rcases hfb : findB v with _ | b <;>
    simp [chooseRef]

/-- Decomposition of one loop iteration: the replaced occurrence is a
reference of one of the two forms, no reference of either form starts
earlier, and the replacement is the `getEnv` lookup of the reference
word. -/
lemma evalStep_decomp (env : List String) (v v' : List Char)
    (h : evalStep env v = some v') :
    ∃ s e w, RefAt v s e w ∧ (∀ s' e' w', RefAt v s' e' w' → s ≤ s')
      ∧ v' = v.take s ++ (getEnv (String.mk w) env).toList ++ v.drop e := by
  rw [evalStep] at h
  rcases hfa : findA v with _ | ⟨sa, ea⟩ <;> rcases hfb : findB v with _ | ⟨sb, eb⟩ <;>
    rw [hfa, hfb] at h
  · cases h
  · -- only a B match
    rw [show chooseRef none (some (sb, eb)) = some (sb, eb) from rfl] at h
    obtain ⟨⟨w, hw⟩, hmin⟩ := findB_some v sb eb hfb
    refine ⟨sb, eb, w, Or.inr hw, ?_, ?_⟩
    · intro s' e' w' href
      rcases href with hA | hB
      · exact absurd hA (findA_none v hfa s' e' w')
      · by_contra hlt
        exact hmin s' e' w' (by omega) hB
    · injection h with h
      rw [← h]
      have hseg : seg v (sb + 1) eb = '{' :: w ++ ['}'] := hw.2.2.1
      rw [show ((v.take eb).drop (sb + 1) : List Char) = seg v (sb + 1) eb from rfl, hseg,
        refKey_braced w]
  · -- only an A match
    rw [show chooseRef (some (sa, ea)) none = some (sa, ea) from rfl] at h
    obtain ⟨⟨w, hw⟩, hmin⟩ := findA_some v sa ea hfa
    refine ⟨sa, ea, w, Or.inl hw, ?_, ?_⟩
    · intro s' e' w' href
      rcases href with hA | hB
      · by_contra hlt
        exact hmin s' e' w' (by omega) hA
      · exact absurd hB (findB_none v hfb s' e' w')
    · injection h with h
      rw [← h]
      have hseg : seg v (sa + 1) ea = w := hw.2.2.1
      rw [show ((v.take ea).drop (sa + 1) : List Char) = seg v (sa + 1) ea from rfl, hseg,
        refKey_word w hw.2.2.2.1 hw.2.2.2.2.1]
  · -- both match: the lower start index wins
    rw [show chooseRef (some (sa, ea)) (some (sb, eb))
        = some (if sa < sb then (sa, ea) else (sb, eb)) from rfl] at h
    obtain ⟨⟨wa, hwa⟩, hminA⟩ := findA_some v sa ea hfa
    obtain ⟨⟨wb, hwb⟩, hminB⟩ := findB_some v sb eb hfb
    by_cases hab : sa < sb
    · rw [if_pos hab] at h
      refine ⟨sa, ea, wa, Or.inl hwa, ?_, ?_⟩
      · intro s' e' w' href
        rcases href with hA | hB
        · by_contra hlt
          exact hminA s' e' w' (by omega) hA
        · by_contra hlt
          exact hminB s' e' w' (by omega) hB
      · injection h with h
        rw [← h]
        have hseg : seg v (sa + 1) ea = wa := hwa.2.2.1
        rw [show ((v.take ea).drop (sa + 1) : List Char) = seg v (sa + 1) ea from rfl, hseg,
          refKey_word wa hwa.2.2.2.1 hwa.2.2.2.2.1]
    · rw [if_neg hab] at h
      refine ⟨sb, eb, wb, Or.inr hwb, ?_, ?_⟩
      · intro s' e' w' href
        rcases href with hA | hB
        · by_contra hlt
          exact hminA s' e' w' (by omega) hA
        · by_contra hlt
          exact hminB s' e' w' (by omega) hB
      · injection h with h
        rw [← h]
        have hseg : seg v (sb + 1) eb = '{' :: wb ++ ['}'] := hwb.2.2.1
        rw [show ((v.take eb).drop (sb + 1) : List Char) = seg v (sb + 1) eb from rfl, hseg,
          refKey_braced wb]

lemma findA_none_of_no_dollar (v : List Char) (h : '$' ∉ v) : findA v = none := by
  induction v with
  | nil => rfl
  | cons c rest ih =>
    have hcnd : ¬(c = '$' ∧ 0 < wordRun rest) := by
      rintro ⟨rfl, -⟩
      exact h (List.mem_cons_self _ _)
    rw [findA, if_neg hcnd, ih (fun hm => h (List.mem_cons_of_mem c hm))]
    rfl

lemma findB_none_of_no_dollar (v : List Char) (h : '$' ∉ v) : findB v = none := by
  induction v with
  | nil => rfl
  | cons c rest ih =>
    have hmb : matchBHead (c :: rest) = none := by
      rcases hm : matchBHead (c :: rest) with _ | n
      · rfl
      · obtain ⟨rest', hv, -, -, -⟩ := matchBHead_some_elim _ _ hm
        rw [hv] at h
        exact absurd (List.mem_cons_self _ _) (fun hx => h hx)
    rw [findB, hmb, ih (fun hm => h (List.mem_cons_of_mem c hm))]
    rfl

lemma evalLoop_exit (env : List String) :
    ∀ fuel v r, evalLoop env fuel v = some r → evalStep env r = none := by
  intro fuel
  induction fuel with
  | zero =>
    intro v r h
    cases h
  | succ f ih =>
    intro v r h
    rw [evalLoop] at h
    rcases hstep : evalStep env v with _ | v'
    · rw [hstep] at h
      injection h with h
      subst h
      exact hstep
    · rw [hstep] at h
      exact ih v' r h

/-- Claim C4: `evalEnvString` leaves a `$`-free string unchanged, each loop
iteration replaces the reference of either form (`$WORD` or `${WORD}`)
starting at the lowest index with the `getEnv` lookup of its word (empty
when unresolved), and whenever the loop terminates no reference of either
form remains. -/
theorem c4_expand_earliest (env : List String) (v : List Char) :
    (('$' ∉ v) → ∀ fuel, evalLoop env (fuel + 1) v = some v)
    ∧ (∀ v', evalStep env v = some v' →
        ∃ s e w, RefAt v s e w ∧ (∀ s' e' w', RefAt v s' e' w' → s ≤ s')
          ∧ v' = v.take s ++ (getEnv (String.mk w) env).toList ++ v.drop e)
    ∧ (∀ fuel r, evalLoop env fuel v = some r → ∀ s e w, ¬ RefAt r s e w) := by
  refine ⟨?_, fun v' h => evalStep_decomp env v v' h, ?_⟩
  · intro h fuel
    rw [evalLoop, (evalStep_none_iff env v).mpr
      ⟨findA_none_of_no_dollar v h, findB_none_of_no_dollar v h⟩]
  · intro fuel r h s e w href
    obtain ⟨hfa, hfb⟩ := (evalStep_none_iff env r).mp (evalLoop_exit env fuel v r h)
    rcases href with hA | hB
    · exact findA_none r hfa s e w hA
    · exact findB_none r hfb s e w hB

/-- Witness for `c4_expand_earliest` at concrete inputs: a `$`-free string
is returned unchanged, the replacement of the first step of `"$A-${B}"` is
described by a reference, and the fixed point of a terminating run holds no
reference. -/
theorem c4_witness :
    evalLoop ["A=x", "B=y"] 3 "hi".toList = some "hi".toList
      ∧ (∃ s e w, RefAt "$A-${B}".toList s e w
          ∧ (∀ s' e' w', RefAt "$A-${B}".toList s' e' w' → s ≤ s')
          ∧ "x-${B}".toList = "$A-${B}".toList.take s
              ++ (getEnv (String.mk w) ["A=x", "B=y"]).toList ++ "$A-${B}".toList.drop e)
      ∧ (∀ s e w, ¬ RefAt "x-y".toList s e w) :=
  ⟨(c4_expand_earliest ["A=x", "B=y"] "hi".toList).1 (by decide) 2,
    (c4_expand_earliest ["A=x", "B=y"] "$A-${B}".toList).2.1 "x-${B}".toList (by decide),
    (c4_expand_earliest ["A=x", "B=y"] "$A-${B}".toList).2.2 3 "x-y".toList (by decide)⟩

/-! ### Claim C5: termination of the expansion loop -/

lemma evalLoop_self_ref : ∀ fuel, evalLoop ["A=$A"] fuel ['$', 'A'] = none := by
  intro fuel
  induction fuel with
  | zero => rfl
  | succ f ih =>
    rw [evalLoop, show evalStep ["A=$A"] ['$', 'A'] = some ['$', 'A'] from by decide]
    exact ih

/-- Claim C5, as stated, is false: with the table `["A=$A"]` each iteration
of the loop maps `"$A"` to itself while a match is still present, so the
source's unbounded loop never exits. -/
theorem c5_counterexample : ¬ EvalTerminates "$A" ["A=$A"] := by
  rintro ⟨fuel, hf⟩
  rw [evalEnvString] at hf
  rw [show ("$A" : String).toList = ['$', 'A'] from rfl, evalLoop_self_ref fuel] at hf
  cases hf

lemma refAt_seg_shape (v : List Char) (s e : Nat) (w : List Char) (h : RefAt v s e w) :
    (seg v s e = '$' :: w ∨ seg v s e = '$' :: '{' :: w ++ ['}']) ∧ e ≤ v.length := by
  rcases h with hA | hB
  · have hpos := refA_e_pos v s e w hA
    obtain ⟨h1, h2, h3, -, -, -⟩ := hA
    exact ⟨Or.inl (by rw [seg_expand v s e '$' (by omega) h1, h3]), h2⟩
  · have hpos := refB_e_pos v s e w hB
    obtain ⟨h1, h2, h3, -, -⟩ := hB
    exact ⟨Or.inr (by rw [seg_expand v s e '$' (by omega) h1, h3]; simp), h2⟩

lemma word_no_dollar (w : List Char) (hall : ∀ c ∈ w, isWordChar c) : w.count '$' = 0 := by
  rw [List.count_eq_zero]
  intro hm
  have := hall '$' hm
  simp [isWordChar] at this

lemma evalStep_count (env : List String) (v v' : List Char)
    (hval : ∀ k, '$' ∉ (getEnv k env).toList)
    (h : evalStep env v = some v') : v'.count '$' + 1 = v.count '$' := by
  obtain ⟨s, e, w, href, -, hv'⟩ := evalStep_decomp env v v' h
  obtain ⟨hshape, hle⟩ := refAt_seg_shape v s e w href
  have hw0 : w.count '$' = 0 := by
    rcases href with hA | hB
    · exact word_no_dollar w hA.2.2.2.2.1
    · exact word_no_dollar w hB.2.2.2.2
  have hse : s ≤ e := by
    rcases href with hA | hB
    · have := refA_e_pos v s e w hA
      omega
    · have := refB_e_pos v s e w hB
      omega
  have hsegcount : (seg v s e).count '$' = 1 := by
    rcases hshape with hs1 | hs2
    · rw [hs1]
      simp [List.count_cons, hw0]
    · rw [hs2]
      simp [List.count_cons, List.count_append, hw0]
  have hsplit := take_seg_drop v s e hse
  have hvc : v.count '$' = (v.take s).count '$' + 1 + (v.drop e).count '$' := by
    conv_lhs => rw [← hsplit]
    rw [List.count_append, List.count_append, hsegcount]
  have henv : ((getEnv (String.mk w) env).toList).count '$' = 0 := by
    rw [List.count_eq_zero]
    exact fun hm => hval (String.mk w) hm
  rw [hv', List.count_append, List.count_append, henv]
  omega

lemma evalLoop_total (env : List String) (hval : ∀ k, '$' ∉ (getEnv k env).toList) :
    ∀ (n : Nat) (v : List Char), v.count '$' ≤ n → (evalLoop env (n + 1) v).isSome := by
  intro n
  induction n with
  | zero =>
    intro v hv
    have hnd : '$' ∉ v := by
      rw [← List.count_eq_zero]
      omega
    rw [evalLoop, (evalStep_none_iff env v).mpr
      ⟨findA_none_of_no_dollar v hnd, findB_none_of_no_dollar v hnd⟩]
    rfl
  | succ n ih =>
    intro v hv
    rw [evalLoop]
    rcases hstep : evalStep env v with _ | v'
    · rfl
    · have := evalStep_count env v v' hval hstep
      exact ih v' (by omega)

/-- Claim C5 (amended): the expansion loop terminates whenever no value the
table can substitute contains a `'$'` (each iteration then strictly
decreases the number of `'$'` markers); with a self-referential table value
such as `A=$A` the loop runs unboundedly, so termination does not hold for
every table. -/
theorem c5_termination (v : String) (env : List String)
    (hval : ∀ k, '$' ∉ (getEnv k env).toList) : EvalTerminates v env := by
  refine ⟨v.toList.count '$' + 1, ?_⟩
  have h := evalLoop_total env hval (v.toList.count '$') v.toList le_rfl
  rw [evalEnvString]
  rcases hr : evalLoop env (v.toList.count '$' + 1) v.toList with _ | r
  · rw [hr] at h
    cases h
  · rfl

/-- Witness for `c5_termination` at a concrete input. -/
theorem c5_witness : EvalTerminates "a$Bc" ["B=z"] := by
  refine c5_termination "a$Bc" ["B=z"] ?_
  intro k
  have h : getEnv k ["B=z"] = if goTrimSpace "B" = k then goTrimSpace "z" else "" := by
    rw [getEnv, show (["B=z"] : List String).reverse = ["B=z"] from rfl, getEnvRev,
      show splitEq "B=z" = ["B", "z"] from by decide]
    rfl
  rw [h]
  by_cases hk : goTrimSpace "B" = k
  · rw [if_pos hk]
    decide
  · rw [if_neg hk]
    decide

/-! ### Claim C10: `GoBack` followed by `GoForward` restores the state -/

/-- Invariant of reachable navigator states: either nothing was ever loaded
(empty history, index 0 or -1 after a defensive clamp, empty path), or the
index is in range and the current path is the history entry at the index. -/
def NavInv (s : Nav) : Prop :=
  (s.history = [] ∧ (s.historyIdx = 0 ∨ s.historyIdx = -1) ∧ s.path = "")
  ∨ (0 ≤ s.historyIdx ∧ s.historyIdx < (s.history.length : Int)
      ∧ s.path = s.history.getD s.historyIdx.toNat "")

lemma navInv_goTo (fetch load : String → Bool) (s : Nav) (p : String) (h : NavInv s) :
    NavInv (goTo fetch load s p).1 := by
  rw [goTo]
  by_cases hp : p = ""
  · rw [if_pos hp]
    exact h
  · rw [if_neg hp]
    by_cases heq : normPath p = s.path
    · rw [if_pos heq]
      exact h
    · rw [if_neg heq]
      by_cases hfetch : fetch (normPath p) = true
      · rw [if_neg (not_not_intro hfetch)]
        by_cases hload : load (normPath p) = true
        · rw [if_pos hload]
          right
          refine ⟨?_, ?_, rfl⟩ <;> simp [List.length_append]
        · rw [if_neg hload]
          right
          refine ⟨?_, ?_, rfl⟩ <;> simp [List.length_append]
      · rw [if_pos hfetch]
        exact h

lemma navInv_goBack (fetch load : String → Bool) (s : Nav) (h : NavInv s) :
    NavInv (goBack fetch load s).1 := by
  rw [goBack]
  by_cases hneg : s.historyIdx < 0
  · rw [if_pos hneg]
    rcases h with ⟨h1, h2, h3⟩ | ⟨h1, -, -⟩
    · rw [if_pos (by simp : ({ s with historyIdx := 0 } : Nav).historyIdx ≤ 0)]
      exact Or.inl ⟨h1, Or.inl rfl, h3⟩
    · omega
  · rw [if_neg hneg]
    by_cases hle : s.historyIdx ≤ 0
    · rw [if_pos hle]
      exact h
    · rw [if_neg hle]
      by_cases hfetch : fetch (s.history.getD (s.historyIdx - 1).toNat "") = true
      · rw [if_neg (not_not_intro hfetch)]
        rcases h with ⟨-, h2, -⟩ | ⟨-, h2, -⟩
        · omega
        · by_cases hload : load (s.history.getD (s.historyIdx - 1).toNat "") = true
          · rw [if_pos hload]
            refine Or.inr ⟨?_, ?_, rfl⟩
            · show (0 : Int) ≤ s.historyIdx - 1
              omega
            · show s.historyIdx - 1 < (s.history.length : Int)
              omega
          · rw [if_neg hload]
            refine Or.inr ⟨?_, ?_, rfl⟩
            · show (0 : Int) ≤ s.historyIdx - 1
              omega
            · show s.historyIdx - 1 < (s.history.length : Int)
              omega
      · rw [if_pos hfetch]
        exact h

lemma navInv_goForward (fetch load : String → Bool) (s : Nav) (h : NavInv s) :
    NavInv (goForward fetch load s).1 := by
  rw [goForward]
  by_cases hclamp : s.historyIdx > (s.history.length : Int) - 1
  · rw [if_pos hclamp]
    rcases h with ⟨h1, h2, h3⟩ | ⟨-, h2, -⟩
    · have hend : ({ s with historyIdx := (s.history.length : Int) - 1 } : Nav).historyIdx
          ≥ (({ s with historyIdx := (s.history.length : Int) - 1 } : Nav).history.length : Int) - 1 := by
        simp
      rw [if_pos hend]
      refine Or.inl ⟨h1, Or.inr ?_, h3⟩
      simp [h1]
    · omega
  · rw [if_neg hclamp]
    by_cases hge : s.historyIdx ≥ (s.history.length : Int) - 1
    · rw [if_pos hge]
      exact h
    · rw [if_neg hge]
      by_cases hfetch : fetch (s.history.getD (s.historyIdx + 1).toNat "") = true
      · rw [if_neg (not_not_intro hfetch)]
        rcases h with ⟨h1, h2, -⟩ | ⟨h1, h2, -⟩
        · rw [h1] at hge
          simp at hge
          omega
        · by_cases hload : load (s.history.getD (s.historyIdx + 1).toNat "") = true
          · rw [if_pos hload]
            refine Or.inr ⟨?_, ?_, rfl⟩
            · show (0 : Int) ≤ s.historyIdx + 1
              omega
            · show s.historyIdx + 1 < (s.history.length : Int)
              omega
          · rw [if_neg hload]
            refine Or.inr ⟨?_, ?_, rfl⟩
            · show (0 : Int) ≤ s.historyIdx + 1
              omega
            · show s.historyIdx + 1 < (s.history.length : Int)
              omega
      · rw [if_pos hfetch]
        exact h

lemma reachable_navInv (fetch load : String → Bool) (s : Nav)
    (h : Reachable fetch load s) : NavInv s := by
  induction h with
  | init => exact Or.inl ⟨rfl, Or.inl rfl, rfl⟩
  | stepGoTo s p _ ih => exact navInv_goTo fetch load s p ih
  | stepBack s _ ih => exact navInv_goBack fetch load s ih
  | stepFwd s _ ih => exact navInv_goForward fetch load s ih

lemma goBack_ok (fetch load : String → Bool) (s : Nav)
    (hb : (goBack fetch load s).2 = none) :
    1 ≤ s.historyIdx ∧ (goBack fetch load s).1
      = ⟨s.history, s.historyIdx - 1, s.history.getD (s.historyIdx - 1).toNat ""⟩ := by
  rw [goBack] at hb ⊢
  by_cases hneg : s.historyIdx < 0
  · rw [if_pos hneg] at hb
    rw [if_pos (by simp : ({ s with historyIdx := 0 } : Nav).historyIdx ≤ 0)] at hb
    cases hb
  · rw [if_neg hneg] at hb ⊢
    by_cases hle : s.historyIdx ≤ 0
    · rw [if_pos hle] at hb
      cases hb
    · rw [if_neg hle] at hb ⊢
      by_cases hfetch : fetch (s.history.getD (s.historyIdx - 1).toNat "") = true
      · rw [if_neg (not_not_intro hfetch)] at hb ⊢
        by_cases hload : load (s.history.getD (s.historyIdx - 1).toNat "") = true
        · rw [if_pos hload]
          exact ⟨by omega, rfl⟩
        · rw [if_neg hload] at hb
          cases hb
      · rw [if_pos hfetch] at hb
        cases hb

lemma goForward_ok (fetch load : String → Bool) (s : Nav)
    (hf : (goForward fetch load s).2 = none) :
    s.historyIdx < (s.history.length : Int) - 1 ∧ (goForward fetch load s).1
      = ⟨s.history, s.historyIdx + 1, s.history.getD (s.historyIdx + 1).toNat ""⟩ := by
  rw [goForward] at hf ⊢
  by_cases hclamp : s.historyIdx > (s.history.length : Int) - 1
  · rw [if_pos hclamp] at hf
    rw [if_pos (by simp : ({ s with historyIdx := (s.history.length : Int) - 1 } : Nav).historyIdx
        ≥ (({ s with historyIdx := (s.history.length : Int) - 1 } : Nav).history.length : Int) - 1)] at hf
    cases hf
  · rw [if_neg hclamp] at hf ⊢
    by_cases hge : s.historyIdx ≥ (s.history.length : Int) - 1
    · rw [if_pos hge] at hf
      cases hf
    · rw [if_neg hge] at hf ⊢
      by_cases hfetch : fetch (s.history.getD (s.historyIdx + 1).toNat "") = true
      · rw [if_neg (not_not_intro hfetch)] at hf ⊢
        by_cases hload : load (s.history.getD (s.historyIdx + 1).toNat "") = true
        · rw [if_pos hload]
          exact ⟨by omega, rfl⟩
        · rw [if_neg hload] at hf
          cases hf
      · rw [if_pos hfetch] at hf
        cases hf

/-- Claim C10: from any reachable navigator state, a successful `GoBack`
followed immediately by a successful `GoForward` restores the current path
and history index, and neither operation changes the history sequence. -/
theorem c10_back_forward_roundtrip (fetch load : String → Bool) (s : Nav)
    (hr : Reachable fetch load s)
    (hb : (goBack fetch load s).2 = none)
    (hf : (goForward fetch load (goBack fetch load s).1).2 = none) :
    (goForward fetch load (goBack fetch load s).1).1 = s
      ∧ (goBack fetch load s).1.history = s.history := by
  have hinv := reachable_navInv fetch load s hr
  obtain ⟨hb1, hbstate⟩ := goBack_ok fetch load s hb
  rw [hbstate] at hf
  obtain ⟨-, hfstate⟩ := goForward_ok fetch load _ hf
  rw [hbstate, hfstate]
  rcases hinv with ⟨-, h2, -⟩ | ⟨-, -, h3⟩
  · omega
  · constructor
    · obtain ⟨hist, idx, path⟩ := s
      simp only at h3 ⊢
      rw [show idx - 1 + 1 = idx from by omega, ← h3]
    · rfl

/-- Witness for `c10_back_forward_roundtrip` at a concrete reachable
state. -/
theorem c10_witness :
    (goForward (fun _ => true) (fun _ => true)
        (goBack (fun _ => true) (fun _ => true)
          (goTo (fun _ => true) (fun _ => true)
            (goTo (fun _ => true) (fun _ => true) navInit "/a").1 "/b").1).1).1
      = (goTo (fun _ => true) (fun _ => true)
          (goTo (fun _ => true) (fun _ => true) navInit "/a").1 "/b").1 := by
  have h := c10_back_forward_roundtrip (fun _ => true) (fun _ => true)
    (goTo (fun _ => true) (fun _ => true)
      (goTo (fun _ => true) (fun _ => true) navInit "/a").1 "/b").1
    (Reachable.stepGoTo _ "/b" (Reachable.stepGoTo _ "/a" Reachable.init))
    (by decide) (by decide)
  exact h.1

end Canal
